import Mathlib

/-!
# Verification of the `merkle-trie` repository (`trie.go`)

Shallow embedding of the Go package `trie`: a binary prefix trie keyed by the
bits of byte-sequence keys, with a bottom-up Merkle digest.  Go byte slices are
modelled as `List Nat` (each byte `< 256`); a `nil` slice used as a sentinel
(the `key`/`value` fields of a node) is modelled as `Option (List Nat)`.
Byte (`uint8`) arithmetic on node levels is modelled with explicit `% 256`.

The cryptographic hash (`crypto/sha256`) is an external collaborator; it is
modelled as a parameter `H : List Nat → List Nat` (`H input = digest`), exactly
the black-box contract the package relies on.

Insertion (`node.add`) is not structurally recursive in the Go source (the
"demotion" step re-inserts the detached key into the same node), and it does
not terminate for all inputs (two distinct keys whose examined bit positions
agree everywhere never separate, because levels wrap modulo 256).  It is
therefore embedded with explicit fuel; `AddRes.outOfFuel` marks exhaustion and
`AddRes.keyTooShort` marks the Go runtime panic `index out of range` raised by
`key[n.number]`.  On that panic the partially mutated tree is kept, exactly as
the in-place Go mutations are kept when the panic unwinds.
-/

set_option autoImplicit false
set_option maxRecDepth 4000

namespace MerkleTrieGo

/-- Result of an insertion: normal return, the `index out of range` runtime
panic raised by `key[n.number]` in `node.add`, or fuel exhaustion (the Go
recursion would not have terminated within the given fuel). -/
inductive AddRes : Type where
  | ok : AddRes
  | keyTooShort : AddRes
  | outOfFuel : AddRes
deriving DecidableEq, Repr

/-- The `node` struct of `trie.go`: `level`, children `left`/`right`, and the
`key`/`value` slices (`none` = Go `nil`).  The derived fields `number`
(= `level / 8`) and `bit` (= `1 <<< (7 - level % 8)`) are pure functions of
`level` (they are set only by `newNode`) and are modelled as functions. -/
inductive node : Type where
  | mk (level : Nat) (left right : Option node) (key value : Option (List Nat)) : node

namespace node

def level : node → Nat
  | .mk l _ _ _ _ => l

def left : node → Option node
  | .mk _ a _ _ _ => a

def right : node → Option node
  | .mk _ _ b _ _ => b

def key : node → Option (List Nat)
  | .mk _ _ _ k _ => k

def value : node → Option (List Nat)
  | .mk _ _ _ _ v => v

/-- `number = level / 8`: which key byte this node's branch decision reads. -/
def number (n : node) : Nat := n.level / 8

/-- `bit = 1 << (7 - (level % 8))`: mask selecting left vs. right. -/
def bit (n : node) : Nat := 2 ^ (7 - n.level % 8)

end node

/-- `newNode` of `trie.go` (the `number` and `bit` fields are derived). -/
def newNode (level : Nat) (key value : Option (List Nat)) : node :=
  .mk level none none key value

/-- `func (n *node) add(key, value []byte)` of `trie.go`, with fuel.
Sequencing follows the source exactly: the key-equality fast path, the branch
decision `n.bit & key[n.number]` (out-of-range index = runtime panic =
`keyTooShort`, keeping the mutations made so far), child creation at level
`(n.level+1) % 256` (uint8 arithmetic) or recursion into the child, and
finally the demotion step when `n` itself still holds a key. -/
def node.add : Nat → node → List Nat → Option (List Nat) → node × AddRes
  | 0, n, _, _ => (n, .outOfFuel)
  | fuel+1, n, k, v =>
    if (match n.key with | some k0 => k0 == k | none => false) then
      (node.mk n.level n.left n.right n.key v, .ok)
    else
      match k[n.number]? with
      | none => (n, .keyTooShort)
      | some b =>
        let goLeft : Bool := n.bit &&& b == 0
        let step :=
          if goLeft then
            match n.left with
            | none =>
              (node.mk n.level (some (newNode ((n.level + 1) % 256) (some k) v))
                n.right n.key n.value, AddRes.ok)
            | some l =>
              let (l', r) := node.add fuel l k v
              (node.mk n.level (some l') n.right n.key n.value, r)
          else
            match n.right with
            | none =>
              (node.mk n.level n.left (some (newNode ((n.level + 1) % 256) (some k) v))
                n.key n.value, AddRes.ok)
            | some rn =>
              let (r', r) := node.add fuel rn k v
              (node.mk n.level n.left (some r') n.key n.value, r)
        match step with
        | (n1, AddRes.ok) =>
          match n1.key with
          | some okey => node.add fuel (node.mk n1.level n1.left n1.right none none) okey n1.value
          | none => (n1, AddRes.ok)
        | e => e

/-- The `MerkleTrie` struct: root node plus the `empty` flag. -/
structure MerkleTrie : Type where
  root : node
  empty : Bool

/-- `NewMerkleTrie`: placeholder root at level 0, `empty = true`. -/
def NewMerkleTrie : MerkleTrie :=
  ⟨newNode 0 none none, true⟩

/-- `func (t *MerkleTrie) Add(key, value []byte)`.  The empty-tree fast path
stores key/value directly on the root; otherwise it delegates to `node.add`. -/
def MerkleTrie.Add (fuel : Nat) (t : MerkleTrie) (k v : List Nat) : MerkleTrie × AddRes :=
  if t.empty then
    (⟨node.mk t.root.level t.root.left t.root.right (some k) (some v), false⟩, .ok)
  else
    let (n', r) := node.add fuel t.root k (some v)
    (⟨n', t.empty⟩, r)

section HashFn

variable (H : List Nat → List Nat)

/-- `func hash(n *node) []byte` of `trie.go`, for an abstract digest function
`H`.  A node with a key hashes only its value (`H` of the value bytes; a Go
`nil` value writes nothing, i.e. hashes like the empty sequence); with one
child the child's digest passes through unchanged; with two children the
digest is `H (left ++ right)`.  `none` is the nil-pointer dereference reached
when a keyless node has no children at all. -/
def hash : node → Option (List Nat)
  | .mk _ _ _ (some _) v => some (H (v.getD []))
  | .mk _ none r none _ =>
    match r with
    | some rn => hash rn
    | none => none
  | .mk _ (some l) none none _ => hash l
  | .mk _ (some l) (some r) none _ =>
    match hash l, hash r with
    | some dl, some dr => some (H (dl ++ dr))
    | _, _ => none

/-- `func (t *MerkleTrie) Hash() []byte`: digest of the empty input when the
trie is empty, otherwise the recursive digest of the root. -/
def MerkleTrie.Hash (t : MerkleTrie) : Option (List Nat) :=
  if t.empty then some (H []) else hash H t.root

end HashFn

/-- The nested closure `r` of `func (t *MerkleTrie) MaxDepth() byte`: a node
with a key reports its level, otherwise the maximum over present children
(absent children contribute the zero value of `byte`). -/
def maxDepthNode : node → Nat
  | .mk lvl _ _ (some _) _ => lvl
  | .mk _ l r none _ =>
    let dl := match l with | some ln => maxDepthNode ln | none => 0
    let dr := match r with | some rn => maxDepthNode rn | none => 0
    if dl > dr then dl else dr

/-- `func (t *MerkleTrie) MaxDepth() byte`. -/
def MerkleTrie.MaxDepth (t : MerkleTrie) : Nat :=
  if t.empty then 0 else maxDepthNode t.root

end MerkleTrieGo

/-! ## Canonical form of insertion-built trees

`canon` builds, directly from a list of key/value entries, the tree that the
insertion algorithm produces: a single entry is a leaf; several entries make
an internal node whose children hold the entries partitioned by the bit the
node's level examines.  Node levels are stored modulo 256 (`uint8`), matching
`newNode`.  `canon` is a verification artifact (it is the *specification* the
code is proved against), fueled because the recursion is on bit depth. -/

namespace MerkleTrieGo

/-- A key/value entry; the value is `Option` because node values are Go
slices that may be `nil`. -/
abbrev Entry := List Nat × Option (List Nat)

/-- Bit `i` of a key, most-significant-bit first within each byte: node at
level `i` branches on byte `i / 8`, mask `1 <<< (7 - i % 8)`. -/
def bitTest (k : List Nat) (i : Nat) : Bool :=
  (k.getD (i / 8) 0).testBit (7 - i % 8)

/-- Canonical tree of a list of entries, starting at depth `lvl`. -/
def canon : Nat → Nat → List Entry → Option node
  | _, _, [] => none
  | _, lvl, [e] => some (node.mk (lvl % 256) none none (some e.1) e.2)
  | 0, _, _ :: _ :: _ => none
  | cf+1, lvl, e1 :: e2 :: es =>
    some (node.mk lvl
      (canon cf (lvl+1) ((e1 :: e2 :: es).filter (fun e => !bitTest e.1 lvl)))
      (canon cf (lvl+1) ((e1 :: e2 :: es).filter (fun e => bitTest e.1 lvl)))
      none none)

/-- A well-formed key for a trie of key length `N`: `N` bytes, each `< 256`. -/
def ByteKey (N : Nat) (k : List Nat) : Prop :=
  k.length = N ∧ ∀ b ∈ k, b < 256

instance decidableByteKey (N : Nat) (k : List Nat) : Decidable (ByteKey N k) :=
  inferInstanceAs (Decidable (k.length = N ∧ ∀ b ∈ k, b < 256))

/-- Entries of a list of public `Add` arguments. -/
def entriesOf (l : List (List Nat × List Nat)) : List Entry :=
  l.map (fun e => (e.1, some e.2))

/-- Folding `Add` over a list of key/value pairs, recording whether every
single insertion returned normally. -/
def MerkleTrie.AddList (fuel : Nat) : MerkleTrie → List (List Nat × List Nat) → MerkleTrie × Bool
  | t, [] => (t, true)
  | t, e :: rest =>
    let (t', r) := MerkleTrie.Add fuel t e.1 e.2
    let (t'', b) := MerkleTrie.AddList fuel t' rest
    (t'', (r = AddRes.ok : Bool) && b)

/-- The default node used to extract canonical trees from `Option`. -/
def dfltNode : node := node.mk 0 none none none none

/-- The canonical tree of a nonempty entry list (total version). -/
def canonT (cf lvl : Nat) (E : List Entry) : node :=
  (canon cf lvl E).getD dfltNode

/-- Entry lists as they occur in a subtree rooted at depth `lvl` of a trie
with key length `N`: well-formed keys, pairwise distinct, sharing all bits
before `lvl`. -/
def Coherent (N lvl : Nat) (E : List Entry) : Prop :=
  (∀ e ∈ E, ByteKey N e.1) ∧
  (E.map Prod.fst).Pairwise (· ≠ ·) ∧
  ∀ e1 ∈ E, ∀ e2 ∈ E, ∀ i, i < lvl → bitTest e1.1 i = bitTest e2.1 i



/-- Replace the value stored under key `k` (the entry list update matching
re-insertion of an existing key). -/
def updateVal (E : List Entry) (k : List Nat) (v : Option (List Nat)) : List Entry :=
  E.map (fun e => if e.1 = k then (e.1, v) else e)



/-- Modelled from the spec (the digest clauses of the hash-aggregation
section), for comparison with the source `hash`: a leaf (key and value set,
no children) hashes only its value; an internal node with both children
hashes the concatenation of their digests, left first; an internal node with
exactly one child passes that child's digest through unchanged. -/
def specDigest (H : List Nat → List Nat) : node → Option (List Nat)
  | .mk _ none none (some _) (some v) => some (H v)
  | .mk _ (some l) (some r) none none =>
    match specDigest H l, specDigest H r with
    | some dl, some dr => some (H (dl ++ dr))
    | _, _ => none
  | .mk _ (some l) none none none => specDigest H l
  | .mk _ none (some r) none none => specDigest H r
  | _ => none

/-- Well-formed node of a nonempty tree: a leaf (key and value set, no
children), or an internal node (key and value unset) with at least one
well-formed child. -/
def wfStrictB : node → Bool
  | .mk _ none none (some _) (some _) => true
  | .mk _ (some l) (some r) none none => wfStrictB l && wfStrictB r
  | .mk _ (some l) none none none => wfStrictB l
  | .mk _ none (some r) none none => wfStrictB r
  | _ => false

/-- The node invariant of the data-model section: every node is a leaf (key
and value both set, no children) or internal (key and value both unset, 0-2
children), hereditarily. -/
def invB : node → Bool
  | .mk _ none none (some _) (some _) => true
  | .mk _ l r none none =>
    (match l with | some ln => invB ln | none => true) &&
    (match r with | some rn => invB rn | none => true)
  | _ => false

/-- Hereditary bound: every stored level is `< 256` (`uint8`). -/
def levelsLtB : node → Bool
  | .mk lvl l r _ _ =>
    decide (lvl < 256) &&
    (match l with | some ln => levelsLtB ln | none => true) &&
    (match r with | some rn => levelsLtB rn | none => true)

/-- `hash` with the traversed node threaded through: the returned node is
rebuilt from exactly the fields the source visits, making the frame property
("the query writes nothing") a provable statement. -/
def hashT (H : List Nat → List Nat) : node → Option (List Nat) × node
  | .mk lvl l r (some k) v => (some (H (v.getD [])), .mk lvl l r (some k) v)
  | .mk lvl none r none v =>
    match r with
    | some rn =>
      let p := hashT H rn
      (p.1, .mk lvl none (some p.2) none v)
    | none => (none, .mk lvl none none none v)
  | .mk lvl (some l) none none v =>
    let p := hashT H l
    (p.1, .mk lvl (some p.2) none none v)
  | .mk lvl (some l) (some r) none v =>
    let p := hashT H l
    let q := hashT H r
    match p.1, q.1 with
    | some a, some b => (some (H (a ++ b)), .mk lvl (some p.2) (some q.2) none v)
    | _, _ => (none, .mk lvl (some p.2) (some q.2) none v)

/-- `MaxDepth`'s recursion with the traversed node threaded through. -/
def maxDepthT : node → Nat × node
  | .mk lvl l r (some k) v => (lvl, .mk lvl l r (some k) v)
  | .mk lvl none none none v =>
    (if 0 > 0 then 0 else 0, .mk lvl none none none v)
  | .mk lvl (some ln) none none v =>
    let p := maxDepthT ln
    (if p.1 > 0 then p.1 else 0, .mk lvl (some p.2) none none v)
  | .mk lvl none (some rn) none v =>
    let p := maxDepthT rn
    (if 0 > p.1 then 0 else p.1, .mk lvl none (some p.2) none v)
  | .mk lvl (some ln) (some rn) none v =>
    let p := maxDepthT ln
    let q := maxDepthT rn
    (if p.1 > q.1 then p.1 else q.1, .mk lvl (some p.2) (some q.2) none v)

/-- `Hash` with the trie threaded through. -/
def MerkleTrie.HashT (H : List Nat → List Nat) (t : MerkleTrie) :
    Option (List Nat) × MerkleTrie :=
  if t.empty then (some (H []), t)
  else
    let p := hashT H t.root
    (p.1, ⟨p.2, t.empty⟩)

/-- `MaxDepth` with the trie threaded through. -/
def MerkleTrie.MaxDepthT (t : MerkleTrie) : Nat × MerkleTrie :=
  if t.empty then (0, t)
  else
    let p := maxDepthT t.root
    (p.1, ⟨p.2, t.empty⟩)

/-- Erase all stored values, keeping levels, keys and child links: the tree
shape in the sense of the data model. -/
def stripValues : node → node
  | .mk lvl l r k _ =>
    .mk lvl (match l with | some ln => some (stripValues ln) | none => none)
      (match r with | some rn => some (stripValues rn) | none => none) k none


theorem canon_nil (cf lvl : Nat) : canon cf lvl [] = none := by
  cases cf <;> rfl

theorem canon_singleton (cf lvl : Nat) (e : Entry) :
    canon cf lvl [e] = some (node.mk (lvl % 256) none none (some e.1) e.2) := by
  cases cf <;> rfl

theorem canon_cons₂ (cf lvl : Nat) (e1 e2 : Entry) (es : List Entry) :
    canon (cf+1) lvl (e1 :: e2 :: es) = some (node.mk lvl
      (canon cf (lvl+1) ((e1 :: e2 :: es).filter (fun e => !bitTest e.1 lvl)))
      (canon cf (lvl+1) ((e1 :: e2 :: es).filter (fun e => bitTest e.1 lvl)))
      none none) := rfl


/-! ### Bit-level lemmas -/

theorem land_pow_eq_zero (j b : Nat) :
    ((2 ^ j &&& b == 0) : Bool) = !b.testBit j := by
  rw [Nat.two_pow_and]
  cases h : b.testBit j <;> simp [h, Nat.pow_eq_zero]

theorem getElem?_eq_some_getD {l : List Nat} {i : Nat} (h : i < l.length) :
    l[i]? = some (l.getD i 0) := by
  simp [List.getD_eq_getElem?_getD, List.getElem?_eq_getElem h]

theorem getElem?_eq_none_of_le {l : List Nat} {i : Nat} (h : l.length ≤ i) :
    l[i]? = none :=
  List.getElem?_eq_none h

/-- Two keys of the same byte length with equal bits everywhere are equal. -/
theorem eq_of_bitTest_eq {N : Nat} {k1 k2 : List Nat}
    (h1 : ByteKey N k1) (h2 : ByteKey N k2)
    (h : ∀ i, i < 8 * N → bitTest k1 i = bitTest k2 i) : k1 = k2 := by
  obtain ⟨hl1, hb1⟩ := h1
  obtain ⟨hl2, hb2⟩ := h2
  apply List.ext_getElem (by omega)
  intro j hj1 hj2
  apply Nat.eq_of_testBit_eq
  intro r
  by_cases hr : r < 8
  · have hi := h (8 * j + (7 - r)) (by omega)
    have hdiv : (8 * j + (7 - r)) / 8 = j := by omega
    have hmod : 7 - (8 * j + (7 - r)) % 8 = r := by omega
    rw [bitTest, bitTest, hdiv, hmod] at hi
    rwa [List.getD_eq_getElem?_getD, List.getD_eq_getElem?_getD,
      List.getElem?_eq_getElem hj1, List.getElem?_eq_getElem hj2,
      Option.getD_some, Option.getD_some] at hi
  · have hpow : (256 : Nat) ≤ 2 ^ r := by
      calc (256 : Nat) = 2 ^ 8 := by norm_num
        _ ≤ 2 ^ r := Nat.pow_le_pow_right (by norm_num) (by omega)
    have b1 : k1[j] < 2 ^ r := lt_of_lt_of_le (hb1 _ (List.getElem_mem hj1)) hpow
    have b2 : k2[j] < 2 ^ r := lt_of_lt_of_le (hb2 _ (List.getElem_mem hj2)) hpow
    rw [Nat.testBit_eq_false_of_lt b1, Nat.testBit_eq_false_of_lt b2]

/-- Two distinct keys of the same byte length have a first differing bit. -/
theorem exists_firstDiff {N : Nat} {k1 k2 : List Nat}
    (h1 : ByteKey N k1) (h2 : ByteKey N k2) (hne : k1 ≠ k2) :
    ∃ d, d < 8 * N ∧ bitTest k1 d ≠ bitTest k2 d ∧
      ∀ j, j < d → bitTest k1 j = bitTest k2 j := by
  have hex : ∃ i, i < 8 * N ∧ bitTest k1 i ≠ bitTest k2 i := by
    by_contra hc
    push_neg at hc
    exact hne (eq_of_bitTest_eq h1 h2 hc)
  obtain ⟨i, hi, hdiff⟩ := hex
  have hex' : ∃ i, bitTest k1 i ≠ bitTest k2 i := ⟨i, hdiff⟩
  refine ⟨Nat.find hex', lt_of_le_of_lt (Nat.find_le hdiff) hi, Nat.find_spec hex', ?_⟩
  intro j hj
  have := Nat.find_min hex' hj
  tauto

end MerkleTrieGo

namespace MerkleTrieGo

/-- Branch test of `node.add` expressed through `bitTest`: the bit is clear
(go left) iff `bitTest` is false. -/
theorem branch_eq (k : List Nat) (lvl : Nat) :
    ((2 ^ (7 - lvl % 8) &&& k.getD (lvl / 8) 0 == 0) : Bool) = !bitTest k lvl := by
  rw [land_pow_eq_zero]; rfl

/-- Branch test of `node.add` through `bitTest`, for a fetched byte. -/
theorem branch_eq_of_getElem {k : List Nat} {lvl b : Nat} (h : k[lvl / 8]? = some b) :
    ((2 ^ (7 - lvl % 8) &&& b == 0) : Bool) = !bitTest k lvl := by
  have hb : k.getD (lvl / 8) 0 = b := by
    simp [List.getD_eq_getElem?_getD, h]
  rw [← hb, branch_eq]


/-- `canon` only depends on the entry list up to permutation. -/
theorem canon_perm : ∀ (cf lvl : Nat) {E E' : List Entry}, E.Perm E' →
    canon cf lvl E = canon cf lvl E' := by
  intro cf
  induction cf with
  | zero =>
    intro lvl E E' hp
    cases E with
    | nil => rw [← hp.nil_eq]
    | cons e1 tl =>
      cases tl with
      | nil => rw [List.perm_singleton.mp hp.symm]
      | cons e2 tl2 =>
        rcases E' with _ | ⟨f1, _ | ⟨f2, tl'⟩⟩
        · exact absurd hp.length_eq (by simp)
        · exact absurd hp.length_eq (by simp)
        · rfl
  | succ cf ih =>
    intro lvl E E' hp
    cases E with
    | nil => rw [← hp.nil_eq]
    | cons e1 tl =>
      cases tl with
      | nil => rw [List.perm_singleton.mp hp.symm]
      | cons e2 tl2 =>
        rcases E' with _ | ⟨f1, _ | ⟨f2, tl'⟩⟩
        · exact absurd hp.length_eq (by simp)
        · exact absurd hp.length_eq (by simp)
        · simp only [canon]
          rw [ih (lvl+1) (hp.filter _), ih (lvl+1) (hp.filter _)]

theorem Coherent.filter {N lvl : Nat} {E : List Entry} (h : Coherent N lvl E)
    (p : Entry → Bool)
    (hp : ∀ e1 e2, p e1 = true → p e2 = true → bitTest e1.1 lvl = bitTest e2.1 lvl) :
    Coherent N (lvl + 1) (E.filter p) := by
  obtain ⟨hk, hd, hsh⟩ := h
  refine ⟨fun e he => hk e (List.mem_of_mem_filter he), ?_, ?_⟩
  · exact hd.sublist ((List.filter_sublist E).map Prod.fst)
  · intro e1 he1 e2 he2 i hi
    have m1 := List.mem_of_mem_filter he1
    have m2 := List.mem_of_mem_filter he2
    rcases Nat.lt_succ_iff_lt_or_eq.mp hi with hlt | rfl
    · exact hsh e1 m1 e2 m2 i hlt
    · exact hp e1 e2 (List.of_mem_filter he1) (List.of_mem_filter he2)

/-- Two distinct coherent entries diverge at a bit position in `[lvl, 8*N)`. -/
theorem Coherent.diverge {N lvl : Nat} {E : List Entry}
    (h : Coherent N lvl E) {e1 e2 : Entry} (h1 : e1 ∈ E) (h2 : e2 ∈ E)
    (hne : e1.1 ≠ e2.1) :
    ∃ d, lvl ≤ d ∧ d < 8 * N ∧ bitTest e1.1 d ≠ bitTest e2.1 d ∧
      ∀ j, j < d → bitTest e1.1 j = bitTest e2.1 j := by
  obtain ⟨hk, _, hsh⟩ := h
  obtain ⟨d, hd8, hdiff, hbelow⟩ := exists_firstDiff (hk e1 h1) (hk e2 h2) hne
  refine ⟨d, ?_, hd8, hdiff, hbelow⟩
  by_contra hlt
  exact hdiff (hsh e1 h1 e2 h2 d (by omega))

/-- With enough fuel a nonempty coherent entry list has a canonical tree. -/
theorem canon_isSome {N cf lvl : Nat} {E : List Entry}
    (hco : Coherent N lvl E) (hne : E ≠ []) (hfuel : 8 * N ≤ lvl + cf) :
    canon cf lvl E = some (canonT cf lvl E) := by
  cases E with
  | nil => exact absurd rfl hne
  | cons e1 tl =>
    cases tl with
    | nil => simp [canonT, canon_singleton]
    | cons e2 tl2 =>
      cases cf with
      | zero =>
        have hne12 : e1.1 ≠ e2.1 := by
          have := hco.2.1
          simp only [List.map_cons, List.pairwise_cons] at this
          exact this.1 e2.1 (by simp)
        obtain ⟨d, hld, hd8, _, _⟩ :=
          hco.diverge (List.mem_cons_self e1 _)
            (List.mem_cons_of_mem _ (List.mem_cons_self e2 _)) hne12
        omega
      | succ cf => simp [canonT, canon_cons₂]

end MerkleTrieGo

namespace MerkleTrieGo

/-- A nonempty entry list with positive fuel has a canonical tree. -/
theorem canon_some_of_pos {cf lvl : Nat} {E : List Entry} (hne : E ≠ [])
    (hcf : 1 ≤ cf) : canon cf lvl E = some (canonT cf lvl E) := by
  cases E with
  | nil => exact absurd rfl hne
  | cons e1 tl =>
    cases tl with
    | nil => simp [canonT, canon_singleton]
    | cons e2 tl2 =>
      obtain ⟨cf', rfl⟩ : ∃ cf', cf = cf' + 1 := ⟨cf - 1, by omega⟩
      simp [canonT, canon_cons₂]

/-- Inserting a second key into a leaf: the "demotion dance".  The leaf holds
`(k1, v1)` at depth `lvl`; inserting `(k2, v2)`, whose first divergence from
`k1` at or after `lvl` is at bit `d`, produces exactly the canonical
two-entry tree. -/
theorem leafdance : ∀ (gap lvl d f cf : Nat) (k1 k2 : List Nat)
    (v1 v2 : Option (List Nat)),
    lvl + gap = d → d < 256 →
    d / 8 < k1.length → d / 8 < k2.length →
    bitTest k1 d ≠ bitTest k2 d →
    (∀ j, lvl ≤ j → j < d → bitTest k1 j = bitTest k2 j) →
    2 * gap + 3 ≤ f → gap + 1 ≤ cf →
    node.add f (node.mk lvl none none (some k1) v1) k2 v2
      = (canonT cf lvl [(k1, v1), (k2, v2)], AddRes.ok) := by
  intro gap
  induction gap with
  | zero =>
    intro lvl d f cf k1 k2 v1 v2 hld hd256 hl1 hl2 hdiff hshare hf hcf
    obtain rfl : d = lvl := by omega
    obtain ⟨f, rfl⟩ : ∃ f', f = f' + 2 := ⟨f - 2, by omega⟩
    obtain ⟨cf, rfl⟩ : ∃ cf', cf = cf' + 1 := ⟨cf - 1, by omega⟩
    have hne : k1 ≠ k2 := fun h => hdiff (by rw [h])
    have hbeq : (k1 == k2) = false := beq_eq_false_iff_ne.mpr hne
    obtain ⟨b2, hgb2⟩ : ∃ b, k2[d / 8]? = some b := ⟨_, getElem?_eq_some_getD hl2⟩
    obtain ⟨b1, hgb1⟩ : ∃ b, k1[d / 8]? = some b := ⟨_, getElem?_eq_some_getD hl1⟩
    have hbr2 := branch_eq_of_getElem hgb2
    have hbr1 := branch_eq_of_getElem hgb1
    cases hb2 : bitTest k2 d
    · have hb1 : bitTest k1 d = true := by
        cases hb1 : bitTest k1 d
        · exact absurd (hb1.trans hb2.symm) hdiff
        · rfl
      rw [hb1] at hbr1; rw [hb2] at hbr2
      simp only [node.add, node.key, node.level, node.left, node.right, node.value,
        node.number, node.bit, hbeq, hgb1, hgb2, hbr1, hbr2, canonT, canon_cons₂,
        Bool.not_true, Bool.not_false, if_true, if_false, cond_true, cond_false]
      simp [List.filter, hb1, hb2, canon_singleton, newNode]
    · have hb1 : bitTest k1 d = false := by
        cases hb1 : bitTest k1 d
        · rfl
        · exact absurd (hb1.trans hb2.symm) hdiff
      rw [hb1] at hbr1; rw [hb2] at hbr2
      simp only [node.add, node.key, node.level, node.left, node.right, node.value,
        node.number, node.bit, hbeq, hgb1, hgb2, hbr1, hbr2, canonT, canon_cons₂,
        Bool.not_true, Bool.not_false, if_true, if_false, cond_true, cond_false]
      simp [List.filter, hb1, hb2, canon_singleton, newNode, hgb1, hgb2, hbr1, hbr2]
  | succ gap ih =>
    intro lvl d f cf k1 k2 v1 v2 hld hd256 hl1 hl2 hdiff hshare hf hcf
    obtain ⟨f, rfl⟩ : ∃ g, f = g + 2 := ⟨f - 2, by omega⟩
    obtain ⟨cf, rfl⟩ : ∃ g, cf = g + 1 := ⟨cf - 1, by omega⟩
    have hlvl_lt : lvl < d := by omega
    have hne : k1 ≠ k2 := fun h => hdiff (by rw [h])
    have hbeq : (k1 == k2) = false := beq_eq_false_iff_ne.mpr hne
    have hal1 : lvl / 8 < k1.length := by omega
    have hal2 : lvl / 8 < k2.length := by omega
    obtain ⟨b2, hgb2⟩ : ∃ b, k2[lvl / 8]? = some b := ⟨_, getElem?_eq_some_getD hal2⟩
    obtain ⟨b1, hgb1⟩ : ∃ b, k1[lvl / 8]? = some b := ⟨_, getElem?_eq_some_getD hal1⟩
    have hbr2 := branch_eq_of_getElem hgb2
    have hbr1 := branch_eq_of_getElem hgb1
    have hmod : (lvl + 1) % 256 = lvl + 1 := Nat.mod_eq_of_lt (by omega)
    have hsh_lvl : bitTest k1 lvl = bitTest k2 lvl := hshare lvl le_rfl hlvl_lt
    have hIH := ih (lvl + 1) d f cf k2 k1 v2 v1 (by omega) hd256 hl2 hl1
      (Ne.symm hdiff) (fun j hj1 hj2 => (hshare j (by omega) hj2).symm)
      (by omega) (by omega)
    have hchild : canon cf (lvl + 1) [(k1, v1), (k2, v2)]
        = some (canonT cf (lvl + 1) [(k2, v2), (k1, v1)]) := by
      rw [canon_perm cf (lvl + 1) (List.Perm.swap (k2, v2) (k1, v1) [])]
      exact canon_some_of_pos (by simp) (by omega)
    cases hb2 : bitTest k2 lvl
    · have hb1 : bitTest k1 lvl = false := hsh_lvl.trans hb2
      rw [hb1] at hbr1; rw [hb2] at hbr2
      simp [node.add, node.key, node.level, node.left, node.right, node.value,
        node.number, node.bit, hbeq, hgb1, hgb2, hbr1, hbr2, hmod, hIH, hchild,
        canonT, canon_cons₂, canon_nil, List.filter, hb1, hb2, newNode]
    · have hb1 : bitTest k1 lvl = true := hsh_lvl.trans hb2
      rw [hb1] at hbr1; rw [hb2] at hbr2
      simp [node.add, node.key, node.level, node.left, node.right, node.value,
        node.number, node.bit, hbeq, hgb1, hgb2, hbr1, hbr2, hmod, hIH, hchild,
        canonT, canon_cons₂, canon_nil, List.filter, hb1, hb2, newNode]

/-- A coherent entry list at `lvl` of two or more entries forces `lvl < 8*N`
(two distinct keys must still diverge at or after `lvl`). -/
theorem Coherent.lvl_lt {N lvl : Nat} {e1 e2 : Entry} {es : List Entry}
    (hco : Coherent N lvl (e1 :: e2 :: es)) : lvl < 8 * N := by
  have hne : e1.1 ≠ e2.1 := by
    have := hco.2.1
    simp only [List.map_cons, List.pairwise_cons] at this
    exact this.1 e2.1 (by simp)
  obtain ⟨d, hld, hd8, _, _⟩ :=
    hco.diverge (List.mem_cons_self e1 _)
      (List.mem_cons_of_mem _ (List.mem_cons_self e2 _)) hne
  omega

/-- Appending a fresh key that shares all bits below `lvl` keeps coherence. -/
theorem Coherent.append_new {N lvl : Nat} {E : List Entry} {k : List Nat}
    {v : Option (List Nat)} (hco : Coherent N lvl E) (hk : ByteKey N k)
    (hnot : k ∉ E.map Prod.fst)
    (hpref : ∀ e ∈ E, ∀ i, i < lvl → bitTest e.1 i = bitTest k i) :
    Coherent N lvl (E ++ [(k, v)]) := by
  obtain ⟨hks, hd, hsh⟩ := hco
  refine ⟨?_, ?_, ?_⟩
  · intro e he
    rcases List.mem_append.mp he with h | h
    · exact hks e h
    · simp only [List.mem_singleton] at h
      subst h; exact hk
  · rw [List.map_append]
    apply List.pairwise_append.mpr
    refine ⟨hd, by simp, ?_⟩
    intro a ha b hb
    simp only [List.map_cons, List.map_nil, List.mem_singleton] at hb
    subst hb
    exact fun h => hnot (h ▸ ha)
  · intro e1 he1 e2 he2 i hi
    rcases List.mem_append.mp he1 with h1 | h1 <;> rcases List.mem_append.mp he2 with h2 | h2
    · exact hsh e1 h1 e2 h2 i hi
    · simp only [List.mem_singleton] at h2
      subst h2; exact hpref e1 h1 i hi
    · simp only [List.mem_singleton] at h1
      subst h1; exact (hpref e2 h2 i hi).symm
    · simp only [List.mem_singleton] at h1 h2
      subst h1; subst h2; rfl

theorem updateVal_nil (k : List Nat) (v : Option (List Nat)) :
    updateVal [] k v = [] := rfl

theorem updateVal_cons (e : Entry) (E : List Entry) (k : List Nat) (v : Option (List Nat)) :
    updateVal (e :: E) k v
      = (if e.1 = k then (e.1, v) else e) :: updateVal E k v := rfl

theorem updateVal_keys (E : List Entry) (k : List Nat) (v : Option (List Nat)) :
    (updateVal E k v).map Prod.fst = E.map Prod.fst := by
  induction E with
  | nil => rfl
  | cons e tl ih =>
    simp only [updateVal_cons, List.map_cons, ih]
    by_cases he : e.1 = k <;> simp [he]

theorem updateVal_filter (E : List Entry) (k : List Nat) (v : Option (List Nat))
    (p : Entry → Bool) (hp : ∀ (x : List Nat) (w w' : Option (List Nat)), p (x, w) = p (x, w')) :
    (updateVal E k v).filter p = updateVal (E.filter p) k v := by
  induction E with
  | nil => rfl
  | cons e tl ih =>
    have hpe : p (if e.1 = k then (e.1, v) else e) = p e := by
      by_cases he : e.1 = k
      · rw [if_pos he]
        calc p (e.1, v) = p (e.1, e.2) := hp e.1 v e.2
          _ = p e := rfl
      · rw [if_neg he]
    simp only [updateVal_cons, List.filter_cons, hpe]
    cases hq : p e
    · simpa [hq] using ih
    · simp [hq, ih, updateVal_cons]

theorem updateVal_coherent {N lvl : Nat} {E : List Entry} (hco : Coherent N lvl E)
    (k : List Nat) (v : Option (List Nat)) : Coherent N lvl (updateVal E k v) := by
  obtain ⟨hks, hd, hsh⟩ := hco
  have hmem : ∀ e ∈ updateVal E k v, ∃ e' ∈ E, e.1 = e'.1 := by
    intro e he
    obtain ⟨e', he', heq⟩ := List.mem_map.mp he
    refine ⟨e', he', ?_⟩
    by_cases h : e'.1 = k <;> simp [h] at heq <;> rw [← heq]
    simp [h]
  refine ⟨?_, ?_, ?_⟩
  · intro e he
    obtain ⟨e', he', heq⟩ := hmem e he
    rw [heq]; exact hks e' he'
  · rw [updateVal_keys]; exact hd
  · intro e1 he1 e2 he2 i hi
    obtain ⟨e1', h1', hq1⟩ := hmem e1 he1
    obtain ⟨e2', h2', hq2⟩ := hmem e2 he2
    rw [hq1, hq2]; exact hsh e1' h1' e2' h2' i hi

/-- Inserting a fresh key into the canonical tree of a coherent entry list
appends the entry: `node.add` returns the canonical tree of the extended
list, with no error. -/
theorem addCanonNew : ∀ (cf lvl N f : Nat) (E : List Entry) (k : List Nat)
    (v : Option (List Nat)),
    Coherent N lvl E → E ≠ [] → ByteKey N k →
    k ∉ E.map Prod.fst →
    (∀ e ∈ E, ∀ i, i < lvl → bitTest e.1 i = bitTest k i) →
    8 * N ≤ 256 → 8 * N ≤ lvl + cf → 16 * N + 5 ≤ f + 2 * lvl →
    node.add f (canonT cf lvl E) k v
      = (canonT cf lvl (E ++ [(k, v)]), AddRes.ok) := by
  intro cf
  induction cf with
  | zero =>
    intro lvl N f E k v hco hne hk hnot hpref h256 hcf hf
    exfalso
    cases E with
    | nil => exact hne rfl
    | cons e tl =>
      cases tl with
      | nil =>
        have hke : e.1 ≠ k := fun h => hnot (by simp [← h])
        exact hke (eq_of_bitTest_eq (hco.1 e (by simp)) hk
          (fun i hi => hpref e (by simp) i (by omega)))
      | cons e2 tl2 =>
        have := hco.lvl_lt
        omega
  | succ cf ih =>
    intro lvl N f E k v hco hne hk hnot hpref h256 hcf hf
    have hlenk : k.length = N := hk.1
    cases E with
    | nil => exact absurd rfl hne
    | cons e tl =>
      cases tl with
      | nil =>
        have hke : k ≠ e.1 := fun h => hnot (by simp [h])
        have hby : ByteKey N e.1 := hco.1 e (by simp)
        have hlen_e : e.1.length = N := hby.1
        obtain ⟨d, hd8, hdiff, hbelow⟩ := exists_firstDiff hby hk hke.symm
        have hdlvl : lvl ≤ d := by
          by_contra hlt
          exact hdiff (hpref e (by simp) d (by omega))
        have hmodl : lvl % 256 = lvl := Nat.mod_eq_of_lt (by omega)
        have hld := leafdance (d - lvl) lvl d f (cf + 1) e.1 k e.2 v (by omega)
          (by omega) (by omega) (by omega) hdiff
          (fun j hj1 hj2 => hbelow j hj2) (by omega) (by omega)
        simp only [canonT, canon_singleton, hmodl, Option.getD_some,
          List.singleton_append] at hld ⊢
        rw [hld]
      | cons e2 tl2 =>
        have hlvl8 : lvl < 8 * N := hco.lvl_lt
        have hidx : lvl / 8 < k.length := by omega
        obtain ⟨b, hgb⟩ : ∃ b, k[lvl / 8]? = some b := ⟨_, getElem?_eq_some_getD hidx⟩
        have hbr := branch_eq_of_getElem hgb
        obtain ⟨f, rfl⟩ : ∃ g, f = g + 1 := ⟨f - 1, by omega⟩
        cases hbk : bitTest k lvl
        · -- k goes left
          rw [hbk] at hbr
          have hcoF : Coherent N (lvl + 1)
              ((e :: e2 :: tl2).filter (fun x => !bitTest x.1 lvl)) := by
            refine hco.filter _ (fun x1 x2 h1 h2 => ?_)
            simp only [Bool.not_eq_true'] at h1 h2
            rw [h1, h2]
          have hnotF : k ∉ ((e :: e2 :: tl2).filter
              (fun x => !bitTest x.1 lvl)).map Prod.fst :=
            fun h => hnot (((List.filter_sublist _).map Prod.fst).subset h)
          have hprefF : ∀ x ∈ (e :: e2 :: tl2).filter (fun x => !bitTest x.1 lvl),
              ∀ i, i < lvl + 1 → bitTest x.1 i = bitTest k i := by
            intro x hx i hi
            rcases Nat.lt_succ_iff_lt_or_eq.mp hi with hlt | rfl
            · exact hpref x (List.mem_of_mem_filter hx) i hlt
            · have := List.of_mem_filter hx
              simp only [Bool.not_eq_true'] at this
              rw [this, hbk]
          have hfiltApp : ((e :: e2 :: tl2) ++ [(k, v)]).filter
                (fun x => !bitTest x.1 lvl)
              = ((e :: e2 :: tl2).filter (fun x => !bitTest x.1 lvl)) ++ [(k, v)] := by
            rw [List.filter_append]
            simp [hbk]
          have hfiltApp1 : ((e :: e2 :: tl2) ++ [(k, v)]).filter
                (fun x => bitTest x.1 lvl)
              = (e :: e2 :: tl2).filter (fun x => bitTest x.1 lvl) := by
            rw [List.filter_append]
            simp [hbk]
          simp only [List.cons_append] at hfiltApp hfiltApp1
          cases hF0 : (e :: e2 :: tl2).filter (fun x => !bitTest x.1 lvl) with
          | nil =>
            simp only [canonT, canon_cons₂, Option.getD_some, List.cons_append,
              hfiltApp, hfiltApp1, hF0, List.nil_append]
            simp [node.add, node.key, node.level, node.left, node.right, node.value,
              node.number, node.bit, hgb, hbr, canon_nil, canon_singleton,
              newNode]
          | cons ee tt =>
            obtain ⟨C0, hC0⟩ : ∃ C, canon cf (lvl + 1)
                  ((e :: e2 :: tl2).filter (fun x => !bitTest x.1 lvl)) = some C :=
              ⟨_, canon_isSome hcoF (by rw [hF0]; simp) (by omega)⟩
            obtain ⟨C1, hC1⟩ : ∃ C, canon cf (lvl + 1)
                  (((e :: e2 :: tl2).filter (fun x => !bitTest x.1 lvl)) ++ [(k, v)])
                = some C :=
              ⟨_, canon_isSome (hcoF.append_new hk hnotF hprefF) (by simp) (by omega)⟩
            have hrec := ih (lvl + 1) N f
              ((e :: e2 :: tl2).filter (fun x => !bitTest x.1 lvl)) k v
              hcoF (by rw [hF0]; simp) hk hnotF hprefF h256 (by omega) (by omega)
            simp only [canonT, hC0, hC1, Option.getD_some] at hrec
            simp only [canonT, canon_cons₂, Option.getD_some, List.cons_append,
              hfiltApp, hfiltApp1, hC0, hC1]
            simp [node.add, node.key, node.level, node.left, node.right, node.value,
              node.number, node.bit, hgb, hbr, hrec]
        · -- k goes right
          rw [hbk] at hbr
          have hcoF : Coherent N (lvl + 1)
              ((e :: e2 :: tl2).filter (fun x => bitTest x.1 lvl)) := by
            refine hco.filter _ (fun x1 x2 h1 h2 => ?_)
            rw [h1, h2]
          have hnotF : k ∉ ((e :: e2 :: tl2).filter
              (fun x => bitTest x.1 lvl)).map Prod.fst :=
            fun h => hnot (((List.filter_sublist _).map Prod.fst).subset h)
          have hprefF : ∀ x ∈ (e :: e2 :: tl2).filter (fun x => bitTest x.1 lvl),
              ∀ i, i < lvl + 1 → bitTest x.1 i = bitTest k i := by
            intro x hx i hi
            rcases Nat.lt_succ_iff_lt_or_eq.mp hi with hlt | rfl
            · exact hpref x (List.mem_of_mem_filter hx) i hlt
            · have := List.of_mem_filter hx
              rw [this, hbk]
          have hfiltApp : ((e :: e2 :: tl2) ++ [(k, v)]).filter
                (fun x => bitTest x.1 lvl)
              = ((e :: e2 :: tl2).filter (fun x => bitTest x.1 lvl)) ++ [(k, v)] := by
            rw [List.filter_append]
            simp [hbk]
          have hfiltApp1 : ((e :: e2 :: tl2) ++ [(k, v)]).filter
                (fun x => !bitTest x.1 lvl)
              = (e :: e2 :: tl2).filter (fun x => !bitTest x.1 lvl) := by
            rw [List.filter_append]
            simp [hbk]
          simp only [List.cons_append] at hfiltApp hfiltApp1
          cases hF0 : (e :: e2 :: tl2).filter (fun x => bitTest x.1 lvl) with
          | nil =>
            simp only [canonT, canon_cons₂, Option.getD_some, List.cons_append,
              hfiltApp, hfiltApp1, hF0, List.nil_append]
            simp [node.add, node.key, node.level, node.left, node.right, node.value,
              node.number, node.bit, hgb, hbr, canon_nil, canon_singleton,
              newNode]
          | cons ee tt =>
            obtain ⟨C0, hC0⟩ : ∃ C, canon cf (lvl + 1)
                  ((e :: e2 :: tl2).filter (fun x => bitTest x.1 lvl)) = some C :=
              ⟨_, canon_isSome hcoF (by rw [hF0]; simp) (by omega)⟩
            obtain ⟨C1, hC1⟩ : ∃ C, canon cf (lvl + 1)
                  (((e :: e2 :: tl2).filter (fun x => bitTest x.1 lvl)) ++ [(k, v)])
                = some C :=
              ⟨_, canon_isSome (hcoF.append_new hk hnotF hprefF) (by simp) (by omega)⟩
            have hrec := ih (lvl + 1) N f
              ((e :: e2 :: tl2).filter (fun x => bitTest x.1 lvl)) k v
              hcoF (by rw [hF0]; simp) hk hnotF hprefF h256 (by omega) (by omega)
            simp only [canonT, hC0, hC1, Option.getD_some] at hrec
            simp only [canonT, canon_cons₂, Option.getD_some, List.cons_append,
              hfiltApp, hfiltApp1, hC0, hC1]
            simp [node.add, node.key, node.level, node.left, node.right, node.value,
              node.number, node.bit, hgb, hbr, hrec]

theorem updateVal_ne_nil {E : List Entry} (h : E ≠ []) (k : List Nat)
    (v : Option (List Nat)) : updateVal E k v ≠ [] := by
  cases E with
  | nil => exact absurd rfl h
  | cons e tl => simp [updateVal]

theorem updateVal_id_of_not_mem {E : List Entry} {k : List Nat}
    (h : k ∉ E.map Prod.fst) (v : Option (List Nat)) : updateVal E k v = E := by
  induction E with
  | nil => rfl
  | cons e tl ih =>
    simp only [List.map_cons, List.mem_cons] at h
    push_neg at h
    rw [updateVal_cons, if_neg (fun hc => h.1 hc.symm), ih h.2]

/-- Re-inserting a key already present in the canonical tree of a coherent
entry list replaces the stored value and returns normally. -/
theorem addCanonUpdate : ∀ (cf lvl N f : Nat) (E : List Entry) (k : List Nat)
    (v : Option (List Nat)),
    Coherent N lvl E →
    k ∈ E.map Prod.fst →
    lvl ≤ 8 * N →
    8 * N ≤ 256 → 8 * N ≤ lvl + cf → 8 * N + 1 ≤ f + lvl →
    node.add f (canonT cf lvl E) k v
      = (canonT cf lvl (updateVal E k v), AddRes.ok) := by
  intro cf
  induction cf with
  | zero =>
    intro lvl N f E k v hco hkmem hl8 h256 hcf hf
    cases E with
    | nil => simp at hkmem
    | cons e tl =>
      cases tl with
      | nil =>
        obtain rfl : k = e.1 := by simpa using hkmem
        obtain ⟨f, rfl⟩ : ∃ g, f = g + 1 := ⟨f - 1, by omega⟩
        simp [canonT, canon_singleton, updateVal_cons, updateVal_nil, node.add,
          node.key, node.level, node.left, node.right, node.value]
      | cons e2 tl2 =>
        have := hco.lvl_lt
        omega
  | succ cf ih =>
    intro lvl N f E k v hco hkmem hl8 h256 hcf hf
    cases E with
    | nil => simp at hkmem
    | cons e tl =>
      cases tl with
      | nil =>
        obtain rfl : k = e.1 := by simpa using hkmem
        obtain ⟨f, rfl⟩ : ∃ g, f = g + 1 := ⟨f - 1, by omega⟩
        simp [canonT, canon_singleton, updateVal_cons, updateVal_nil, node.add,
          node.key, node.level, node.left, node.right, node.value]
      | cons e2 tl2 =>
        have hlvl8 : lvl < 8 * N := hco.lvl_lt
        obtain ⟨ek, hek_mem, hek⟩ := List.mem_map.mp hkmem
        have hbyk : ByteKey N k := hek ▸ hco.1 ek hek_mem
        have hidx : lvl / 8 < k.length := by
          have := hbyk.1
          omega
        obtain ⟨b, hgb⟩ : ∃ b, k[lvl / 8]? = some b := ⟨_, getElem?_eq_some_getD hidx⟩
        have hbr := branch_eq_of_getElem hgb
        obtain ⟨f, rfl⟩ : ∃ g, f = g + 1 := ⟨f - 1, by omega⟩
        cases hbk : bitTest k lvl
        · rw [hbk] at hbr
          have hekF : ek ∈ (e :: e2 :: tl2).filter (fun x => !bitTest x.1 lvl) :=
            List.mem_filter.mpr ⟨hek_mem, by simp [hek, hbk]⟩
          have hcoF : Coherent N (lvl + 1)
              ((e :: e2 :: tl2).filter (fun x => !bitTest x.1 lvl)) := by
            refine hco.filter _ (fun x1 x2 h1 h2 => ?_)
            simp only [Bool.not_eq_true'] at h1 h2
            rw [h1, h2]
          have hmemF : k ∈ ((e :: e2 :: tl2).filter
              (fun x => !bitTest x.1 lvl)).map Prod.fst :=
            List.mem_map.mpr ⟨ek, hekF, hek⟩
          have hnot1 : k ∉ ((e :: e2 :: tl2).filter
              (fun x => bitTest x.1 lvl)).map Prod.fst := by
            intro hc
            obtain ⟨x, hxF, hx1⟩ := List.mem_map.mp hc
            have := List.of_mem_filter hxF
            rw [hx1, hbk] at this
            exact Bool.false_ne_true this
          obtain ⟨C0, hC0⟩ : ∃ C, canon cf (lvl + 1)
                ((e :: e2 :: tl2).filter (fun x => !bitTest x.1 lvl)) = some C :=
            ⟨_, canon_isSome hcoF (List.ne_nil_of_mem hekF) (by omega)⟩
          obtain ⟨C1, hC1⟩ : ∃ C, canon cf (lvl + 1)
                (updateVal ((e :: e2 :: tl2).filter (fun x => !bitTest x.1 lvl)) k v)
              = some C :=
            ⟨_, canon_isSome (updateVal_coherent hcoF k v)
              (updateVal_ne_nil (List.ne_nil_of_mem hekF) k v) (by omega)⟩
          have hrec := ih (lvl + 1) N f
            ((e :: e2 :: tl2).filter (fun x => !bitTest x.1 lvl)) k v
            hcoF hmemF (by omega) h256 (by omega) (by omega)
          simp only [canonT, hC0, hC1, Option.getD_some] at hrec
          have hfu0 : (updateVal (e :: e2 :: tl2) k v).filter
                (fun x => !bitTest x.1 lvl)
              = updateVal ((e :: e2 :: tl2).filter (fun x => !bitTest x.1 lvl)) k v :=
            updateVal_filter (e :: e2 :: tl2) k v (fun x => !bitTest x.1 lvl)
              (fun x w w' => rfl)
          have hfu1 : (updateVal (e :: e2 :: tl2) k v).filter
                (fun x => bitTest x.1 lvl)
              = (e :: e2 :: tl2).filter (fun x => bitTest x.1 lvl) := by
            rw [updateVal_filter (e :: e2 :: tl2) k v (fun x => bitTest x.1 lvl)
                (fun x w w' => rfl),
              updateVal_id_of_not_mem hnot1]
          simp only [updateVal_cons] at hfu0 hfu1
          simp only [canonT, updateVal_cons, canon_cons₂, Option.getD_some,
            hfu0, hfu1, hC0, hC1]
          simp [node.add, node.key, node.level, node.left, node.right, node.value,
            node.number, node.bit, hgb, hbr, hrec]
        · rw [hbk] at hbr
          have hekF : ek ∈ (e :: e2 :: tl2).filter (fun x => bitTest x.1 lvl) :=
            List.mem_filter.mpr ⟨hek_mem, by simp [hek, hbk]⟩
          have hcoF : Coherent N (lvl + 1)
              ((e :: e2 :: tl2).filter (fun x => bitTest x.1 lvl)) := by
            refine hco.filter _ (fun x1 x2 h1 h2 => ?_)
            rw [h1, h2]
          have hmemF : k ∈ ((e :: e2 :: tl2).filter
              (fun x => bitTest x.1 lvl)).map Prod.fst :=
            List.mem_map.mpr ⟨ek, hekF, hek⟩
          have hnot1 : k ∉ ((e :: e2 :: tl2).filter
              (fun x => !bitTest x.1 lvl)).map Prod.fst := by
            intro hc
            obtain ⟨x, hxF, hx1⟩ := List.mem_map.mp hc
            have := List.of_mem_filter hxF
            rw [hx1, hbk] at this
            simp at this
          obtain ⟨C0, hC0⟩ : ∃ C, canon cf (lvl + 1)
                ((e :: e2 :: tl2).filter (fun x => bitTest x.1 lvl)) = some C :=
            ⟨_, canon_isSome hcoF (List.ne_nil_of_mem hekF) (by omega)⟩
          obtain ⟨C1, hC1⟩ : ∃ C, canon cf (lvl + 1)
                (updateVal ((e :: e2 :: tl2).filter (fun x => bitTest x.1 lvl)) k v)
              = some C :=
            ⟨_, canon_isSome (updateVal_coherent hcoF k v)
              (updateVal_ne_nil (List.ne_nil_of_mem hekF) k v) (by omega)⟩
          have hrec := ih (lvl + 1) N f
            ((e :: e2 :: tl2).filter (fun x => bitTest x.1 lvl)) k v
            hcoF hmemF (by omega) h256 (by omega) (by omega)
          simp only [canonT, hC0, hC1, Option.getD_some] at hrec
          have hfu0 : (updateVal (e :: e2 :: tl2) k v).filter
                (fun x => bitTest x.1 lvl)
              = updateVal ((e :: e2 :: tl2).filter (fun x => bitTest x.1 lvl)) k v :=
            updateVal_filter (e :: e2 :: tl2) k v (fun x => bitTest x.1 lvl)
              (fun x w w' => rfl)
          have hfu1 : (updateVal (e :: e2 :: tl2) k v).filter
                (fun x => !bitTest x.1 lvl)
              = (e :: e2 :: tl2).filter (fun x => !bitTest x.1 lvl) := by
            rw [updateVal_filter (e :: e2 :: tl2) k v (fun x => !bitTest x.1 lvl)
                (fun x w w' => rfl),
              updateVal_id_of_not_mem hnot1]
          simp only [updateVal_cons] at hfu0 hfu1
          simp only [canonT, updateVal_cons, canon_cons₂, Option.getD_some,
            hfu0, hfu1, hC0, hC1]
          simp [node.add, node.key, node.level, node.left, node.right, node.value,
            node.number, node.bit, hgb, hbr, hrec]

/-- Folding `Add` over fresh keys extends the canonical tree entry by
entry (auxiliary induction with an accumulator of already-inserted
entries). -/
theorem AddList_canon_aux : ∀ (rest : List (List Nat × List Nat))
    (E : List Entry) (N f cf : Nat),
    Coherent N 0 E → E ≠ [] →
    (∀ e ∈ rest, ByteKey N e.1) →
    ((E.map Prod.fst) ++ rest.map Prod.fst).Pairwise (· ≠ ·) →
    8 * N ≤ 256 → 8 * N ≤ cf → 16 * N + 5 ≤ f →
    MerkleTrie.AddList f ⟨canonT cf 0 E, false⟩ rest
      = (⟨canonT cf 0 (E ++ entriesOf rest), false⟩, true) := by
  intro rest
  induction rest with
  | nil =>
    intro E N f cf hco hne hkeys hdist h256 hcf hf
    simp [MerkleTrie.AddList, entriesOf]
  | cons kv rest ih =>
    intro E N f cf hco hne hkeys hdist h256 hcf hf
    have hk : ByteKey N kv.1 := hkeys kv (by simp)
    have hnot : kv.1 ∉ E.map Prod.fst := by
      intro hc
      have := (List.pairwise_append.mp hdist).2.2 kv.1 hc kv.1 (by simp)
      exact this rfl
    have hadd := addCanonNew cf 0 N f E kv.1 (some kv.2) hco hne hk hnot
      (fun e he i hi => absurd hi (by omega)) h256 (by omega) (by omega)
    have hco' : Coherent N 0 (E ++ [(kv.1, some kv.2)]) :=
      hco.append_new hk hnot (fun e he i hi => absurd hi (by omega))
    have hdist' : ((E ++ [(kv.1, some kv.2)]).map Prod.fst
        ++ rest.map Prod.fst).Pairwise (· ≠ ·) := by
      rw [List.map_append]
      simpa [← List.append_cons] using hdist
    have hstep := ih (E ++ [(kv.1, some kv.2)]) N f cf hco' (by simp)
      (fun e he => hkeys e (by simp [he])) hdist' h256 hcf hf
    simp only [MerkleTrie.AddList, MerkleTrie.Add]
    simp only [Bool.false_eq_true, if_false, hadd, hstep]
    simp [entriesOf, List.append_assoc]

/-- Folding `Add` over a nonempty list of distinct well-formed keys starting
from the empty trie yields exactly the canonical tree of its entries, with
every insertion returning normally. -/
theorem AddList_canon (l : List (List Nat × List Nat)) (N f : Nat)
    (hne : l ≠ []) (hkeys : ∀ e ∈ l, ByteKey N e.1)
    (hdist : (l.map Prod.fst).Pairwise (· ≠ ·))
    (h256 : 8 * N ≤ 256) (hf : 16 * N + 5 ≤ f) :
    MerkleTrie.AddList f NewMerkleTrie l
      = (⟨canonT 256 0 (entriesOf l), false⟩, true) := by
  cases l with
  | nil => exact absurd rfl hne
  | cons kv rest =>
    have h1 : MerkleTrie.Add f NewMerkleTrie kv.1 kv.2
        = (⟨canonT 256 0 [(kv.1, some kv.2)], false⟩, AddRes.ok) := by
      simp [MerkleTrie.Add, NewMerkleTrie, newNode, node.level, node.left,
        node.right, canonT, canon_singleton]
    have hstep := AddList_canon_aux rest [(kv.1, some kv.2)] N f 256
      (⟨by simp [hkeys kv (by simp)], by simp, by simp⟩)
      (by simp) (fun e he => hkeys e (by simp [he]))
      (by simpa using hdist) h256 (by omega) hf
    simp only [MerkleTrie.AddList, h1, hstep]
    simp [entriesOf]

/-! ## Claim theorems -/

/-- C1: For every set of distinct keys (all of the same byte length `N`, with
`8*N ≤ 256`, so each key is long enough for every depth the tree can reach),
inserting the key/value pairs in any permutation via `Add` yields a trie with
the identical final `Hash` digest and the identical final `MaxDepth` value
(for any digest function `H`, every insertion returning normally). -/
theorem add_order_independence (l1 l2 : List (List Nat × List Nat))
    (N f1 f2 : Nat) (H : List Nat → List Nat)
    (hperm : l1.Perm l2)
    (hkeys : ∀ e ∈ l1, ByteKey N e.1)
    (hdist : (l1.map Prod.fst).Pairwise (· ≠ ·))
    (h256 : 8 * N ≤ 256) (hf1 : 16 * N + 5 ≤ f1) (hf2 : 16 * N + 5 ≤ f2) :
    MerkleTrie.Hash H (MerkleTrie.AddList f1 NewMerkleTrie l1).1
      = MerkleTrie.Hash H (MerkleTrie.AddList f2 NewMerkleTrie l2).1
    ∧ MerkleTrie.MaxDepth (MerkleTrie.AddList f1 NewMerkleTrie l1).1
      = MerkleTrie.MaxDepth (MerkleTrie.AddList f2 NewMerkleTrie l2).1 := by
  cases hl1 : l1 with
  | nil =>
    obtain rfl : l2 = [] := (hl1 ▸ hperm).nil_eq.symm
    subst hl1
    exact ⟨rfl, rfl⟩
  | cons kv rest =>
    subst hl1
    have hne2 : l2 ≠ [] := fun h => by
      rw [h] at hperm
      exact List.cons_ne_nil kv rest hperm.eq_nil
    have hkeys2 : ∀ e ∈ l2, ByteKey N e.1 :=
      fun e he => hkeys e (hperm.mem_iff.mpr he)
    have hdist2 : (l2.map Prod.fst).Pairwise (· ≠ ·) :=
      ((hperm.map Prod.fst).pairwise_iff (fun h => Ne.symm h)).mp hdist
    have h1 := AddList_canon (kv :: rest) N f1 (by simp) hkeys hdist h256 hf1
    have h2 := AddList_canon l2 N f2 hne2 hkeys2 hdist2 h256 hf2
    have hcanon : canonT 256 0 (entriesOf (kv :: rest)) = canonT 256 0 (entriesOf l2) := by
      unfold canonT entriesOf
      rw [canon_perm 256 0 (hperm.map (fun e => (e.1, some e.2)))]
    rw [h1, h2, hcanon]
    exact ⟨rfl, rfl⟩

/-- Closed witness for C1: two one-byte keys inserted in both orders. -/
theorem add_order_independence_witness :
    MerkleTrie.Hash (fun l => 9 :: l)
        (MerkleTrie.AddList 600 NewMerkleTrie [([0], [1]), ([128], [2])]).1
      = MerkleTrie.Hash (fun l => 9 :: l)
        (MerkleTrie.AddList 600 NewMerkleTrie [([128], [2]), ([0], [1])]).1
    ∧ MerkleTrie.MaxDepth
        (MerkleTrie.AddList 600 NewMerkleTrie [([0], [1]), ([128], [2])]).1
      = MerkleTrie.MaxDepth
        (MerkleTrie.AddList 600 NewMerkleTrie [([128], [2]), ([0], [1])]).1 :=
  add_order_independence [([0], [1]), ([128], [2])] [([128], [2]), ([0], [1])]
    1 600 600 (fun l => 9 :: l) (List.Perm.swap ([128], [2]) ([0], [1]) [])
    (by decide) (by decide) (by decide) (by decide) (by decide)

/-- Canonical trees of nonempty coherent entry lists are well-formed. -/
theorem canon_wf : ∀ (cf lvl N : Nat) (E : List Entry), Coherent N lvl E →
    (∀ e ∈ E, e.2.isSome = true) →
    E ≠ [] → 8 * N ≤ lvl + cf → wfStrictB (canonT cf lvl E) = true := by
  intro cf
  induction cf with
  | zero =>
    intro lvl N E hco hvals hne hcf
    cases E with
    | nil => exact absurd rfl hne
    | cons e tl =>
      cases tl with
      | nil =>
        obtain ⟨w, hw⟩ := Option.isSome_iff_exists.mp (hvals e (by simp))
        simp [canonT, canon_singleton, wfStrictB, hw]
      | cons e2 tl2 =>
        have := hco.lvl_lt
        omega
  | succ cf ih =>
    intro lvl N E hco hvals hne hcf
    cases E with
    | nil => exact absurd rfl hne
    | cons e tl =>
      cases tl with
      | nil =>
        obtain ⟨w, hw⟩ := Option.isSome_iff_exists.mp (hvals e (by simp))
        simp [canonT, canon_singleton, wfStrictB, hw]
      | cons e2 tl2 =>
        have hvalsF : ∀ (p : Entry → Bool),
            ∀ x ∈ (e :: e2 :: tl2).filter p, x.2.isSome = true :=
          fun p x hx => hvals x (List.mem_of_mem_filter hx)
        have hcoF0 : Coherent N (lvl + 1)
            ((e :: e2 :: tl2).filter (fun x => !bitTest x.1 lvl)) := by
          refine hco.filter _ (fun x1 x2 h1 h2 => ?_)
          simp only [Bool.not_eq_true'] at h1 h2
          rw [h1, h2]
        have hcoF1 : Coherent N (lvl + 1)
            ((e :: e2 :: tl2).filter (fun x => bitTest x.1 lvl)) := by
          refine hco.filter _ (fun x1 x2 h1 h2 => ?_)
          rw [h1, h2]
        rcases hF0 : (e :: e2 :: tl2).filter (fun x => !bitTest x.1 lvl)
          with _ | ⟨x0, t0⟩ <;>
          rcases hF1 : (e :: e2 :: tl2).filter (fun x => bitTest x.1 lvl)
            with _ | ⟨x1, t1⟩
        · exfalso
          cases hbe : bitTest e.1 lvl
          · have : e ∈ (e :: e2 :: tl2).filter (fun x => !bitTest x.1 lvl) :=
              List.mem_filter.mpr ⟨by simp, by simp [hbe]⟩
            rw [hF0] at this
            simp at this
          · have : e ∈ (e :: e2 :: tl2).filter (fun x => bitTest x.1 lvl) :=
              List.mem_filter.mpr ⟨by simp, by simp [hbe]⟩
            rw [hF1] at this
            simp at this
        · obtain ⟨C1, hC1⟩ : ∃ C, canon cf (lvl + 1)
              ((e :: e2 :: tl2).filter (fun x => bitTest x.1 lvl)) = some C :=
            ⟨_, canon_isSome hcoF1 (by rw [hF1]; simp) (by omega)⟩
          have hw := ih (lvl + 1) N _ hcoF1 (hvalsF _) (by rw [hF1]; simp) (by omega)
          rw [canonT, hC1, Option.getD_some] at hw
          simp [canonT, canon_cons₂, hF0, canon_nil, hC1, wfStrictB, hw]
        · obtain ⟨C0, hC0⟩ : ∃ C, canon cf (lvl + 1)
              ((e :: e2 :: tl2).filter (fun x => !bitTest x.1 lvl)) = some C :=
            ⟨_, canon_isSome hcoF0 (by rw [hF0]; simp) (by omega)⟩
          have hw := ih (lvl + 1) N _ hcoF0 (hvalsF _) (by rw [hF0]; simp) (by omega)
          rw [canonT, hC0, Option.getD_some] at hw
          simp [canonT, canon_cons₂, hF1, canon_nil, hC0, wfStrictB, hw]
        · obtain ⟨C0, hC0⟩ : ∃ C, canon cf (lvl + 1)
              ((e :: e2 :: tl2).filter (fun x => !bitTest x.1 lvl)) = some C :=
            ⟨_, canon_isSome hcoF0 (by rw [hF0]; simp) (by omega)⟩
          obtain ⟨C1, hC1⟩ : ∃ C, canon cf (lvl + 1)
              ((e :: e2 :: tl2).filter (fun x => bitTest x.1 lvl)) = some C :=
            ⟨_, canon_isSome hcoF1 (by rw [hF1]; simp) (by omega)⟩
          have hw0 := ih (lvl + 1) N _ hcoF0 (hvalsF _) (by rw [hF0]; simp) (by omega)
          have hw1 := ih (lvl + 1) N _ hcoF1 (hvalsF _) (by rw [hF1]; simp) (by omega)
          rw [canonT, hC0, Option.getD_some] at hw0
          rw [canonT, hC1, Option.getD_some] at hw1
          simp [canonT, canon_cons₂, hC0, hC1, wfStrictB, hw0, hw1]

/-- On well-formed nodes the source `hash` agrees with the digest recursion
written out in the spec, and always produces a digest. -/
theorem hash_eq_specDigest (H : List Nat → List Nat) :
    ∀ (n : node), wfStrictB n = true →
      hash H n = specDigest H n ∧ (hash H n).isSome = true := by
  intro n
  induction n using wfStrictB.induct with
  | case1 lvl k v => intro _; exact ⟨rfl, rfl⟩
  | case2 lvl l r ihl ihr =>
    intro hwf
    simp only [wfStrictB, Bool.and_eq_true] at hwf
    obtain ⟨dl, hdl⟩ := Option.isSome_iff_exists.mp (ihl hwf.1).2
    obtain ⟨dr, hdr⟩ := Option.isSome_iff_exists.mp (ihr hwf.2).2
    have hl := (ihl hwf.1).1
    have hr := (ihr hwf.2).1
    simp [hash, specDigest, hdl, hdr, ← hl, ← hr]
  | case3 lvl l ihl =>
    intro hwf
    simp only [wfStrictB] at hwf
    obtain ⟨dl, hdl⟩ := Option.isSome_iff_exists.mp (ihl hwf).2
    have hl := (ihl hwf).1
    simp [hash, specDigest, hdl, ← hl]
  | case4 lvl r ihr =>
    intro hwf
    simp only [wfStrictB] at hwf
    obtain ⟨dr, hdr⟩ := Option.isSome_iff_exists.mp (ihr hwf).2
    have hr := (ihr hwf).1
    simp [hash, specDigest, hdr, ← hr]
  | case5 n h1 h2 h3 h4 =>
    intro hwf
    rw [wfStrictB] at hwf
    · exact absurd hwf (by simp)
    all_goals assumption

/-- C2: For every non-empty well-formed trie, `Hash` equals the spec's
recursive digest (leaf → `H value` with the key not included; two children →
`H (leftDigest ++ rightDigest)`, left first; one child → that child's digest
unchanged), and produces a digest; moreover every trie built by successful
insertions of distinct same-length keys is well-formed in this sense. -/
theorem hash_agrees_spec_digest :
    (∀ (H : List Nat → List Nat) (t : MerkleTrie), t.empty = false →
      wfStrictB t.root = true →
      MerkleTrie.Hash H t = specDigest H t.root
        ∧ (MerkleTrie.Hash H t).isSome = true)
    ∧ (∀ (l : List (List Nat × List Nat)) (N f : Nat), l ≠ [] →
      (∀ e ∈ l, ByteKey N e.1) → (l.map Prod.fst).Pairwise (· ≠ ·) →
      8 * N ≤ 256 → 16 * N + 5 ≤ f →
      (MerkleTrie.AddList f NewMerkleTrie l).1.empty = false
        ∧ wfStrictB (MerkleTrie.AddList f NewMerkleTrie l).1.root = true) := by
  constructor
  · intro H t hempty hwf
    rw [MerkleTrie.Hash, hempty]
    simpa using hash_eq_specDigest H t.root hwf
  · intro l N f hne hkeys hdist h256 hf
    rw [AddList_canon l N f hne hkeys hdist h256 hf]
    refine ⟨rfl, ?_⟩
    have hcoE : Coherent N 0 (entriesOf l) := by
      refine ⟨?_, ?_, ?_⟩
      · intro e he
        obtain ⟨x, hx, rfl⟩ := List.mem_map.mp he
        exact hkeys x hx
      · simpa [entriesOf, List.map_map, Function.comp] using hdist
      · intro e1 _ e2 _ i hi
        omega
    exact canon_wf 256 0 N (entriesOf l) hcoE
      (by intro e he
          obtain ⟨x, hx, rfl⟩ := List.mem_map.mp he
          rfl)
      (by cases l with | nil => exact absurd rfl hne | cons a b => simp [entriesOf])
      (by omega)

/-- Closed witness for C2: a concrete one-leaf trie and a concrete built
trie. -/
theorem hash_agrees_spec_digest_witness :
    (MerkleTrie.Hash (fun l => 9 :: l)
        ⟨node.mk 0 none none (some [5]) (some [7]), false⟩
      = specDigest (fun l => 9 :: l) (node.mk 0 none none (some [5]) (some [7])))
    ∧ wfStrictB (MerkleTrie.AddList 600 NewMerkleTrie
        [([0], [1]), ([128], [2])]).1.root = true :=
  ⟨(hash_agrees_spec_digest.1 (fun l => 9 :: l) _ rfl (by decide)).1,
   (hash_agrees_spec_digest.2 [([0], [1]), ([128], [2])] 1 600 (by decide)
     (by decide) (by decide) (by decide) (by decide)).2⟩

/-- C7: a freshly constructed trie hashes to the digest of the empty input
and reports maximum depth 0. -/
theorem new_trie_hash_empty_maxdepth_zero (H : List Nat → List Nat) :
    MerkleTrie.Hash H NewMerkleTrie = some (H [])
      ∧ MerkleTrie.MaxDepth NewMerkleTrie = 0 :=
  ⟨rfl, rfl⟩

theorem hashT_spec (H : List Nat → List Nat) :
    ∀ n : node, hashT H n = (hash H n, n) := by
  refine fun n => hashT.induct H (fun m => hashT H m = (hash H m, m))
    ?_ ?_ ?_ ?_ ?_ ?_ n
  · intro lvl l r k v
    simp [hashT, hash]
  · intro lvl v rn ih
    simp [hashT, hash, ih]
  · intro lvl v
    simp [hashT, hash]
  · intro lvl l v ih
    simp [hashT, hash, ih]
  · intro lvl l r v p q a b hq hp ihl ihr
    simp only [hashT, hash, ihl, ihr]
    rcases hash H l with _ | dl <;> rcases hash H r with _ | dr <;> simp
  · intro lvl l r v p q hnone ihl ihr
    simp only [hashT, hash, ihl, ihr]
    rcases hash H l with _ | dl <;> rcases hash H r with _ | dr <;> simp
theorem maxDepthT_spec : ∀ n : node, maxDepthT n = (maxDepthNode n, n) := by
  refine fun n => maxDepthT.induct (fun m => maxDepthT m = (maxDepthNode m, m))
    ?_ ?_ ?_ ?_ ?_ n
  · intro lvl l r k v
    simp [maxDepthT, maxDepthNode]
  · intro lvl v
    simp [maxDepthT, maxDepthNode]
  · intro lvl ln v ih
    simp [maxDepthT, maxDepthNode, ih]
  · intro lvl rn v ih
    simp [maxDepthT, maxDepthNode, ih]
  · intro lvl ln rn v ihl ihr
    simp [maxDepthT, maxDepthNode, ihl, ihr]

/-- C9: `Hash` and `MaxDepth` are pure read-only queries: the state-threaded
versions of both traversals return the trie (root node, every node field,
and the empty flag) exactly unchanged, together with the same answers as the
plain functions. -/
theorem hash_maxdepth_readonly (H : List Nat → List Nat) (t : MerkleTrie) :
    MerkleTrie.HashT H t = (MerkleTrie.Hash H t, t)
      ∧ MerkleTrie.MaxDepthT t = (MerkleTrie.MaxDepth t, t) := by
  obtain ⟨rt, em⟩ := t
  constructor
  · cases em <;>
      simp [MerkleTrie.HashT, MerkleTrie.Hash, hashT_spec]
  · cases em <;>
      simp [MerkleTrie.MaxDepthT, MerkleTrie.MaxDepth, maxDepthT_spec]

theorem invB_key_some {lvl : Nat} {l r : Option node} {kk : List Nat}
    {v0 : Option (List Nat)} (h : invB (node.mk lvl l r (some kk) v0) = true) :
    l = none ∧ r = none ∧ v0.isSome = true := by
  cases l <;> cases r <;> cases v0 <;> simp_all [invB]

theorem invB_key_none {lvl : Nat} {l r : Option node} {v0 : Option (List Nat)}
    (h : invB (node.mk lvl l r none v0) = true) :
    v0 = none ∧ (∀ ln, l = some ln → invB ln = true)
      ∧ (∀ rn, r = some rn → invB rn = true) := by
  cases l <;> cases r <;> cases v0 <;> simp_all [invB]

/-- A single successful `node.add` preserves the node invariant (the value
inserted is a present slice, as every caller guarantees). -/
theorem add_preserves_inv : ∀ (f : Nat) (n : node) (k : List Nat)
    (v : Option (List Nat)) (n' : node) (res : AddRes),
    node.add f n k v = (n', res) → res = AddRes.ok →
    invB n = true → v.isSome = true → invB n' = true := by
  intro f
  induction f with
  | zero =>
    intro n k v n' res hadd hok hinv hv
    subst hok
    simp only [node.add] at hadd
    simp at hadd
  | succ f ih =>
    intro n k v n' res hadd hok hinv hv
    subst hok
    obtain ⟨w, rfl⟩ := Option.isSome_iff_exists.mp hv
    obtain ⟨lvl, l, r0, k0, v0⟩ := n
    cases k0 with
    | some kk =>
      obtain ⟨rfl, rfl, hv0⟩ := invB_key_some hinv
      obtain ⟨w0, rfl⟩ := Option.isSome_iff_exists.mp hv0
      simp only [node.add, node.key, node.level, node.left, node.right,
        node.value, node.number, node.bit] at hadd
      cases hkk : (kk == k) <;> rw [hkk] at hadd
      · rcases hidx : k[lvl / 8]? with _ | b <;> rw [hidx] at hadd
        · simp at hadd
        · cases hgl : ((2 ^ (7 - lvl % 8) &&& b == 0) : Bool) <;>
            simp [hgl] at hadd
          · exact ih _ kk (some w0) n' AddRes.ok hadd rfl
              (by simp [invB, newNode]) rfl
          · exact ih _ kk (some w0) n' AddRes.ok hadd rfl
              (by simp [invB, newNode]) rfl
      · simp at hadd
        rw [← hadd]
        simp [invB]
    | none =>
      obtain ⟨rfl, hl, hr⟩ := invB_key_none hinv
      simp only [node.add, node.key, node.level, node.left, node.right,
        node.value, node.number, node.bit] at hadd
      rcases hidx : k[lvl / 8]? with _ | b <;> rw [hidx] at hadd
      · simp at hadd
      · cases hgl : ((2 ^ (7 - lvl % 8) &&& b == 0) : Bool)
        · cases r0 with
          | none =>
            simp [hgl] at hadd
            rw [← hadd]
            rcases l with _ | ln
            · simp [invB, newNode]
            · simp [invB, newNode, hl ln rfl]
          | some rn0 =>
            simp only [hgl] at hadd
            rcases hrec : node.add f rn0 k (some w) with ⟨rn0', res0⟩
            rw [hrec] at hadd
            cases res0 with
            | ok =>
              simp at hadd
              rw [← hadd]
              have hinvr : invB rn0' = true :=
                ih _ _ _ _ _ hrec rfl (hr rn0 rfl) rfl
              rcases l with _ | ln
              · simp [invB, hinvr]
              · simp [invB, hinvr, hl ln rfl]
            | keyTooShort => simp at hadd
            | outOfFuel => simp at hadd
        · cases l with
          | none =>
            simp [hgl] at hadd
            rw [← hadd]
            rcases r0 with _ | rn
            · simp [invB, newNode]
            · simp [invB, newNode, hr rn rfl]
          | some l0 =>
            simp only [hgl] at hadd
            rcases hrec : node.add f l0 k (some w) with ⟨l0', res0⟩
            rw [hrec] at hadd
            cases res0 with
            | ok =>
              simp at hadd
              rw [← hadd]
              have hinvl : invB l0' = true :=
                ih _ _ _ _ _ hrec rfl (hl l0 rfl) rfl
              rcases r0 with _ | rn
              · simp [invB, hinvl]
              · simp [invB, hinvl, hr rn rfl]
            | keyTooShort => simp at hadd
            | outOfFuel => simp at hadd

theorem addList_inv_aux : ∀ (l : List (List Nat × List Nat)) (f : Nat)
    (t : MerkleTrie),
    (t.empty = true → t.root = newNode 0 none none) →
    invB t.root = true →
    (MerkleTrie.AddList f t l).2 = true →
    invB (MerkleTrie.AddList f t l).1.root = true := by
  intro l
  induction l with
  | nil =>
    intro f t hplace hinv hok
    simpa [MerkleTrie.AddList] using hinv
  | cons kv rest ih =>
    intro f t hplace hinv hok
    by_cases hemp : t.empty = true
    · have hroot := hplace hemp
      simp only [MerkleTrie.AddList, MerkleTrie.Add, hemp, if_true] at hok ⊢
      refine ih f _ (by simp) ?_ ?_
      · rw [hroot]
        simp [newNode, node.level, node.left, node.right, invB]
      · simpa using hok
    · rw [Bool.not_eq_true] at hemp
      rcases hrec : node.add f t.root kv.1 (some kv.2) with ⟨n1, res⟩
      simp only [MerkleTrie.AddList, MerkleTrie.Add, hemp, Bool.false_eq_true,
        if_false, hrec] at hok ⊢
      rw [Bool.and_eq_true] at hok
      have hres : res = AddRes.ok := by
        have := hok.1
        simpa using this
      refine ih f _ (by simp [hemp]) ?_ hok.2
      exact add_preserves_inv f t.root kv.1 (some kv.2) n1 res hrec hres hinv rfl

/-- C8: after every sequence of `Add` operations in which every insertion
returned normally, every node reachable from the root is either a leaf (key
and value both set, no children) or an internal node (key and value both
unset, 0, 1 or 2 children). -/
theorem add_sequence_invariant (f : Nat) (l : List (List Nat × List Nat))
    (hok : (MerkleTrie.AddList f NewMerkleTrie l).2 = true) :
    invB (MerkleTrie.AddList f NewMerkleTrie l).1.root = true :=
  addList_inv_aux l f NewMerkleTrie (fun _ => rfl) rfl hok

/-- Closed witness for C8: three insertions (the third overwrites a key). -/
theorem add_sequence_invariant_witness :
    invB (MerkleTrie.AddList 600 NewMerkleTrie
      [([0], [1]), ([128], [2]), ([0], [3])]).1.root = true :=
  add_sequence_invariant 600 [([0], [1]), ([128], [2]), ([0], [3])] (by decide)

theorem stripValues_mk (lvl : Nat) (l r : Option node) (k v : Option (List Nat)) :
    stripValues (node.mk lvl l r k v)
      = node.mk lvl (l.map stripValues) (r.map stripValues) k none := by
  cases l <;> cases r <;> rfl

theorem map_fst_filter_keys : ∀ (E E' : List Entry),
    E.map Prod.fst = E'.map Prod.fst → ∀ (p : List Nat → Bool),
    (E.filter (fun e => p e.1)).map Prod.fst
      = (E'.filter (fun e => p e.1)).map Prod.fst := by
  intro E
  induction E with
  | nil =>
    intro E' h p
    cases E' with
    | nil => rfl
    | cons e' tl' => simp at h
  | cons e tl ih =>
    intro E' h p
    cases E' with
    | nil => simp at h
    | cons e' tl' =>
      simp only [List.map_cons, List.cons.injEq] at h
      obtain ⟨hk, ht⟩ := h
      by_cases hp : p e.1 = true
      · simp [List.filter_cons, hp, hk ▸ hp, hk, ih tl' ht p]
      · rw [Bool.not_eq_true] at hp
        simp [List.filter_cons, hp, hk ▸ hp, ih tl' ht p]

/-- Canonical trees of entry lists with identical key sequences have
identical shape (equal after erasing values). -/
theorem stripValues_canon : ∀ (cf lvl : Nat) (E E' : List Entry),
    E.map Prod.fst = E'.map Prod.fst →
    (canon cf lvl E).map stripValues = (canon cf lvl E').map stripValues := by
  intro cf
  induction cf with
  | zero =>
    intro lvl E E' h
    match E, E' with
    | [], [] => rfl
    | [e], [e'] =>
      simp only [List.map_cons, List.map_nil, List.cons.injEq] at h
      simp [canon_singleton, stripValues_mk, h.1]
    | e1 :: e2 :: es, f1 :: f2 :: fs => rfl
    | [], _ :: _ => simp at h
    | _ :: _, [] => simp at h
    | [e], _ :: _ :: _ => simp at h
    | _ :: _ :: _, [e] => simp at h
  | succ cf ih =>
    intro lvl E E' h
    match E, E' with
    | [], [] => rfl
    | [e], [e'] =>
      simp only [List.map_cons, List.map_nil, List.cons.injEq] at h
      simp [canon_singleton, stripValues_mk, h.1]
    | e1 :: e2 :: es, f1 :: f2 :: fs =>
      simp only [canon_cons₂]
      have h0 := ih (lvl + 1) ((e1 :: e2 :: es).filter (fun e => !bitTest e.1 lvl))
        ((f1 :: f2 :: fs).filter (fun e => !bitTest e.1 lvl))
        (map_fst_filter_keys _ _ h (fun x => !bitTest x lvl))
      have h1 := ih (lvl + 1) ((e1 :: e2 :: es).filter (fun e => bitTest e.1 lvl))
        ((f1 :: f2 :: fs).filter (fun e => bitTest e.1 lvl))
        (map_fst_filter_keys _ _ h (fun x => bitTest x lvl))
      simp [stripValues_mk, h0, h1]
    | [], _ :: _ => simp at h
    | _ :: _, [] => simp at h
    | [e], _ :: _ :: _ => simp at h
    | _ :: _ :: _, [e] => simp at h

theorem entriesOf_keys (l : List (List Nat × List Nat)) :
    (entriesOf l).map Prod.fst = l.map Prod.fst := by
  simp [entriesOf, List.map_map, Function.comp]

/-- C5: re-inserting a key already present in a built trie replaces that
leaf's value in place, never errors, and leaves the tree shape (set of
nodes, child links and levels) unchanged. -/
theorem add_existing_key_replaces (l : List (List Nat × List Nat))
    (k v : List Nat) (N f g : Nat)
    (hne : l ≠ []) (hkeys : ∀ e ∈ l, ByteKey N e.1)
    (hdist : (l.map Prod.fst).Pairwise (· ≠ ·))
    (h256 : 8 * N ≤ 256) (hf : 16 * N + 5 ≤ f) (hg : 8 * N + 1 ≤ g)
    (hkmem : k ∈ l.map Prod.fst) :
    MerkleTrie.Add g (MerkleTrie.AddList f NewMerkleTrie l).1 k v
      = (⟨canonT 256 0 (updateVal (entriesOf l) k (some v)), false⟩, AddRes.ok)
    ∧ stripValues
        (MerkleTrie.Add g (MerkleTrie.AddList f NewMerkleTrie l).1 k v).1.root
      = stripValues (MerkleTrie.AddList f NewMerkleTrie l).1.root := by
  have hfold := AddList_canon l N f hne hkeys hdist h256 hf
  have hcoE : Coherent N 0 (entriesOf l) := by
    refine ⟨?_, ?_, ?_⟩
    · intro e he
      obtain ⟨x, hx, rfl⟩ := List.mem_map.mp he
      exact hkeys x hx
    · simpa [entriesOf, List.map_map, Function.comp] using hdist
    · intro e1 _ e2 _ i hi
      omega
  have hkmem' : k ∈ (entriesOf l).map Prod.fst := by
    rw [entriesOf_keys]
    exact hkmem
  have hupd := addCanonUpdate 256 0 N g (entriesOf l) k (some v) hcoE hkmem'
    (by omega) h256 (by omega) (by omega)
  have hEne : entriesOf l ≠ [] := by
    cases l with
    | nil => exact absurd rfl hne
    | cons a b => simp [entriesOf]
  have hadd : MerkleTrie.Add g (MerkleTrie.AddList f NewMerkleTrie l).1 k v
      = (⟨canonT 256 0 (updateVal (entriesOf l) k (some v)), false⟩, AddRes.ok) := by
    rw [hfold]
    simp only [MerkleTrie.Add, Bool.false_eq_true, if_false, hupd]
  refine ⟨hadd, ?_⟩
  rw [hadd, hfold]
  obtain ⟨T, hT⟩ : ∃ T, canon 256 0 (entriesOf l) = some T :=
    ⟨_, canon_isSome hcoE hEne (by omega)⟩
  obtain ⟨T', hT'⟩ : ∃ T, canon 256 0 (updateVal (entriesOf l) k (some v)) = some T :=
    ⟨_, canon_isSome (updateVal_coherent hcoE k (some v))
      (updateVal_ne_nil hEne k (some v)) (by omega)⟩
  have hstrip := stripValues_canon 256 0 (updateVal (entriesOf l) k (some v))
    (entriesOf l) (updateVal_keys _ _ _)
  rw [hT, hT'] at hstrip
  simp only [Option.map_some', Option.some.injEq] at hstrip
  simp only [canonT, hT, hT', Option.getD_some]
  exact hstrip

/-- Closed witness for C5: overwrite the key `[0]` in a two-key trie. -/
theorem add_existing_key_replaces_witness :
    MerkleTrie.Add 600 (MerkleTrie.AddList 600 NewMerkleTrie
        [([0], [1]), ([128], [2])]).1 [0] [9]
      = (⟨canonT 256 0 (updateVal (entriesOf [([0], [1]), ([128], [2])]) [0]
          (some [9])), false⟩, AddRes.ok)
    ∧ stripValues (MerkleTrie.Add 600 (MerkleTrie.AddList 600 NewMerkleTrie
        [([0], [1]), ([128], [2])]).1 [0] [9]).1.root
      = stripValues (MerkleTrie.AddList 600 NewMerkleTrie
        [([0], [1]), ([128], [2])]).1.root :=
  add_existing_key_replaces [([0], [1]), ([128], [2])] [0] [9] 1 600 600
    (by decide) (by decide) (by decide) (by decide) (by decide) (by decide)
    (by decide)

/-- Maximum leaf level of the canonical two-entry tree: the divergence bit
plus one, stored modulo 256 (`uint8` levels wrap). -/
theorem maxDepth_canon_two : ∀ (gap lvl d cf : Nat) (k1 k2 : List Nat)
    (v1 v2 : Option (List Nat)),
    lvl + gap = d → d < 256 →
    bitTest k1 d ≠ bitTest k2 d →
    (∀ j, lvl ≤ j → j < d → bitTest k1 j = bitTest k2 j) →
    gap + 1 ≤ cf →
    maxDepthNode (canonT cf lvl [(k1, v1), (k2, v2)]) = (d + 1) % 256 := by
  intro gap
  induction gap with
  | zero =>
    intro lvl d cf k1 k2 v1 v2 hld hd256 hdiff hshare hcf
    obtain rfl : d = lvl := by omega
    obtain ⟨cf, rfl⟩ : ∃ g, cf = g + 1 := ⟨cf - 1, by omega⟩
    cases hb1 : bitTest k1 d
    · have hb2 : bitTest k2 d = true := by
        cases hb2 : bitTest k2 d
        · exact absurd (hb1.trans hb2.symm) hdiff
        · rfl
      simp [canonT, canon_cons₂, List.filter, hb1, hb2, canon_singleton,
        maxDepthNode]
    · have hb2 : bitTest k2 d = false := by
        cases hb2 : bitTest k2 d
        · rfl
        · exact absurd (hb1.trans hb2.symm) hdiff
      simp [canonT, canon_cons₂, List.filter, hb1, hb2, canon_singleton,
        maxDepthNode]
  | succ gap ih =>
    intro lvl d cf k1 k2 v1 v2 hld hd256 hdiff hshare hcf
    obtain ⟨cf, rfl⟩ : ∃ g, cf = g + 1 := ⟨cf - 1, by omega⟩
    have hsh : bitTest k1 lvl = bitTest k2 lvl := hshare lvl le_rfl (by omega)
    have hrec := ih (lvl + 1) d cf k1 k2 v1 v2 (by omega) hd256 hdiff
      (fun j hj1 hj2 => hshare j (by omega) hj2) (by omega)
    obtain ⟨C, hC⟩ : ∃ C, canon cf (lvl + 1) [(k1, v1), (k2, v2)] = some C :=
      ⟨_, canon_some_of_pos (by simp) (by omega)⟩
    rw [canonT, hC, Option.getD_some] at hrec
    cases hb1 : bitTest k1 lvl
    · have hb2 : bitTest k2 lvl = false := hb1 ▸ hsh.symm
      simp [canonT, canon_cons₂, List.filter, hb1, hb2, canon_nil, hC,
        maxDepthNode, hrec]
      omega
    · have hb2 : bitTest k2 lvl = true := hb1 ▸ hsh.symm
      simp [canonT, canon_cons₂, List.filter, hb1, hb2, canon_nil, hC,
        maxDepthNode, hrec]

/-- Digest of the canonical two-entry tree: single-child internal nodes pass
through, the branch at the divergence bit hashes both leaf digests, the key
with the clear bit supplying the left digest. -/
theorem hash_canon_two : ∀ (gap lvl d cf : Nat) (k1 k2 : List Nat)
    (v1 v2 : Option (List Nat)) (H : List Nat → List Nat),
    lvl + gap = d → d < 256 →
    bitTest k1 d ≠ bitTest k2 d →
    (∀ j, lvl ≤ j → j < d → bitTest k1 j = bitTest k2 j) →
    gap + 1 ≤ cf →
    hash H (canonT cf lvl [(k1, v1), (k2, v2)])
      = some (H (H ((if bitTest k1 d then v2 else v1).getD [])
          ++ H ((if bitTest k1 d then v1 else v2).getD []))) := by
  intro gap
  induction gap with
  | zero =>
    intro lvl d cf k1 k2 v1 v2 H hld hd256 hdiff hshare hcf
    obtain rfl : d = lvl := by omega
    obtain ⟨cf, rfl⟩ : ∃ g, cf = g + 1 := ⟨cf - 1, by omega⟩
    cases hb1 : bitTest k1 d
    · have hb2 : bitTest k2 d = true := by
        cases hb2 : bitTest k2 d
        · exact absurd (hb1.trans hb2.symm) hdiff
        · rfl
      simp [canonT, canon_cons₂, List.filter, hb1, hb2, canon_singleton, hash]
    · have hb2 : bitTest k2 d = false := by
        cases hb2 : bitTest k2 d
        · rfl
        · exact absurd (hb1.trans hb2.symm) hdiff
      simp [canonT, canon_cons₂, List.filter, hb1, hb2, canon_singleton, hash]
  | succ gap ih =>
    intro lvl d cf k1 k2 v1 v2 H hld hd256 hdiff hshare hcf
    obtain ⟨cf, rfl⟩ : ∃ g, cf = g + 1 := ⟨cf - 1, by omega⟩
    have hsh : bitTest k1 lvl = bitTest k2 lvl := hshare lvl le_rfl (by omega)
    have hrec := ih (lvl + 1) d cf k1 k2 v1 v2 H (by omega) hd256 hdiff
      (fun j hj1 hj2 => hshare j (by omega) hj2) (by omega)
    obtain ⟨C, hC⟩ : ∃ C, canon cf (lvl + 1) [(k1, v1), (k2, v2)] = some C :=
      ⟨_, canon_some_of_pos (by simp) (by omega)⟩
    rw [canonT, hC, Option.getD_some] at hrec
    cases hb1 : bitTest k1 lvl
    · have hb2 : bitTest k2 lvl = false := hb1 ▸ hsh.symm
      simp [canonT, canon_cons₂, List.filter, hb1, hb2, canon_nil, hC,
        hash, hrec]
    · have hb2 : bitTest k2 lvl = true := hb1 ▸ hsh.symm
      simp [canonT, canon_cons₂, List.filter, hb1, hb2, canon_nil, hC,
        hash, hrec]

/-- C6 (amended): for keys of byte length `N ≤ 31` — so that the depth
`8*N` fits in the `uint8` level — two equal-length keys differing only in
their last bit, inserted into an otherwise empty trie, give `MaxDepth` equal
to the position of the first differing bit plus one, and `Hash` equal to
`H (H v_left ++ H v_right)` where the key with the clear bit at the
divergence supplies the left digest.  (The unamended claim fails for
`N = 32`: the depth 256 wraps to 0; see the counterexample.) -/
theorem two_keys_differ_last_bit (H : List Nat → List Nat)
    (k1 k2 v1 v2 : List Nat) (N f : Nat)
    (hN1 : 1 ≤ N) (hN31 : N ≤ 31)
    (hk1 : ByteKey N k1) (hk2 : ByteKey N k2)
    (hdiff : bitTest k1 (8 * N - 1) ≠ bitTest k2 (8 * N - 1))
    (hshare : ∀ j, j < 8 * N - 1 → bitTest k1 j = bitTest k2 j)
    (hf : 16 * N + 5 ≤ f) :
    MerkleTrie.MaxDepth
        (MerkleTrie.AddList f NewMerkleTrie [(k1, v1), (k2, v2)]).1
      = (8 * N - 1) + 1
    ∧ MerkleTrie.Hash H
        (MerkleTrie.AddList f NewMerkleTrie [(k1, v1), (k2, v2)]).1
      = some (H (H (if bitTest k1 (8 * N - 1) then v2 else v1)
          ++ H (if bitTest k1 (8 * N - 1) then v1 else v2))) := by
  have hne12 : k1 ≠ k2 := fun h => hdiff (by rw [h])
  have hkeys : ∀ e ∈ [(k1, v1), (k2, v2)], ByteKey N e.1 := by
    intro e he
    simp only [List.mem_cons, List.not_mem_nil, or_false] at he
    rcases he with rfl | rfl
    · exact hk1
    · exact hk2
  have hfold := AddList_canon [(k1, v1), (k2, v2)] N f (by simp) hkeys
    (by simp [hne12]) (by omega) hf
  rw [hfold]
  have hmd := maxDepth_canon_two (8 * N - 1) 0 (8 * N - 1) 256 k1 k2
    (some v1) (some v2) (by omega) (by omega) hdiff
    (fun j hj1 hj2 => hshare j hj2) (by omega)
  have hhs := hash_canon_two (8 * N - 1) 0 (8 * N - 1) 256 k1 k2
    (some v1) (some v2) H (by omega) (by omega) hdiff
    (fun j hj1 hj2 => hshare j hj2) (by omega)
  have hmod : (8 * N - 1 + 1) % 256 = 8 * N - 1 + 1 :=
    Nat.mod_eq_of_lt (by omega)
  constructor
  · simpa [MerkleTrie.MaxDepth, entriesOf, hmod] using hmd
  · cases hb : bitTest k1 (8 * N - 1) <;>
      simpa [MerkleTrie.Hash, entriesOf, hb] using hhs

/-- Closed witness for C6: the one-byte keys `[0]` and `[1]` differ only in
bit 7; depth 8, digest `H (H [1] ++ H [2])`. -/
theorem two_keys_differ_last_bit_witness :
    MerkleTrie.MaxDepth
        (MerkleTrie.AddList 600 NewMerkleTrie [([0], [1]), ([1], [2])]).1
      = (8 * 1 - 1) + 1
    ∧ MerkleTrie.Hash (fun l => 9 :: l)
        (MerkleTrie.AddList 600 NewMerkleTrie [([0], [1]), ([1], [2])]).1
      = some ((fun l => (9 : Nat) :: l) ((fun l => (9 : Nat) :: l) (if bitTest [0] (8 * 1 - 1) then [2] else [1])
          ++ (fun l => (9 : Nat) :: l) (if bitTest [0] (8 * 1 - 1) then [1] else [2]))) :=
  two_keys_differ_last_bit (fun l => 9 :: l) [0] [1] [1] [2] 1 600
    (by decide) (by decide) (by decide) (by decide) (by decide)
    (by decide) (by decide)

/-- Counterexample to C6 as stated: for the 32-byte keys differing only in
their last bit (bit 255), the code's `MaxDepth` is 0 — the depth 256 wraps
modulo 256 — not "the position of the first differing bit plus one"
(255 + 1 = 256). -/
theorem two_keys_differ_last_bit_counterexample :
    MerkleTrie.MaxDepth (MerkleTrie.AddList 600 NewMerkleTrie
        [(List.replicate 32 0, [1]), (List.replicate 31 0 ++ [1], [2])]).1 = 0
    ∧ (∀ i, i < 255 →
        bitTest (List.replicate 32 0) i = bitTest (List.replicate 31 0 ++ [1]) i)
    ∧ bitTest (List.replicate 32 0) 255 ≠ bitTest (List.replicate 31 0 ++ [1]) 255
    ∧ (0 : Nat) ≠ 255 + 1 := by
  refine ⟨?_, by decide, by decide, by decide⟩
  have hfold := AddList_canon
    [(List.replicate 32 0, [1]), (List.replicate 31 0 ++ [1], [2])] 32 600
    (by simp) (by decide) (by decide) (by decide) (by decide)
  rw [hfold]
  have hmd := maxDepth_canon_two 255 0 255 256 (List.replicate 32 0)
    (List.replicate 31 0 ++ [1]) (some [1]) (some [2]) (by omega) (by omega)
    (by decide) (fun j hj1 hj2 => by revert hj2; revert j; decide) (by omega)
  simpa [MerkleTrie.MaxDepth, entriesOf] using hmd

/-- All levels stored in a canonical tree are `uint8` values (`< 256`). -/
theorem canon_levelsLt : ∀ (cf lvl N : Nat) (E : List Entry), Coherent N lvl E →
    E ≠ [] → 8 * N ≤ 256 → 8 * N ≤ lvl + cf → levelsLtB (canonT cf lvl E) = true := by
  intro cf
  induction cf with
  | zero =>
    intro lvl N E hco hne h256 hcf
    cases E with
    | nil => exact absurd rfl hne
    | cons e tl =>
      cases tl with
      | nil =>
        simp [canonT, canon_singleton, levelsLtB, Nat.mod_lt]
      | cons e2 tl2 =>
        have := hco.lvl_lt
        omega
  | succ cf ih =>
    intro lvl N E hco hne h256 hcf
    cases E with
    | nil => exact absurd rfl hne
    | cons e tl =>
      cases tl with
      | nil =>
        simp [canonT, canon_singleton, levelsLtB, Nat.mod_lt]
      | cons e2 tl2 =>
        have hlvl8 : lvl < 8 * N := hco.lvl_lt
        have hcoF0 : Coherent N (lvl + 1)
            ((e :: e2 :: tl2).filter (fun x => !bitTest x.1 lvl)) := by
          refine hco.filter _ (fun x1 x2 h1 h2 => ?_)
          simp only [Bool.not_eq_true'] at h1 h2
          rw [h1, h2]
        have hcoF1 : Coherent N (lvl + 1)
            ((e :: e2 :: tl2).filter (fun x => bitTest x.1 lvl)) := by
          refine hco.filter _ (fun x1 x2 h1 h2 => ?_)
          rw [h1, h2]
        rcases hF0 : (e :: e2 :: tl2).filter (fun x => !bitTest x.1 lvl)
          with _ | ⟨x0, t0⟩ <;>
          rcases hF1 : (e :: e2 :: tl2).filter (fun x => bitTest x.1 lvl)
            with _ | ⟨x1, t1⟩
        · exfalso
          cases hbe : bitTest e.1 lvl
          · have : e ∈ (e :: e2 :: tl2).filter (fun x => !bitTest x.1 lvl) :=
              List.mem_filter.mpr ⟨by simp, by simp [hbe]⟩
            rw [hF0] at this
            simp at this
          · have : e ∈ (e :: e2 :: tl2).filter (fun x => bitTest x.1 lvl) :=
              List.mem_filter.mpr ⟨by simp, by simp [hbe]⟩
            rw [hF1] at this
            simp at this
        · obtain ⟨C1, hC1⟩ : ∃ C, canon cf (lvl + 1)
              ((e :: e2 :: tl2).filter (fun x => bitTest x.1 lvl)) = some C :=
            ⟨_, canon_isSome hcoF1 (by rw [hF1]; simp) (by omega)⟩
          have hw := ih (lvl + 1) N _ hcoF1 (by rw [hF1]; simp) h256 (by omega)
          rw [canonT, hC1, Option.getD_some] at hw
          simp [canonT, canon_cons₂, hF0, canon_nil, hC1, levelsLtB, hw]
          omega
        · obtain ⟨C0, hC0⟩ : ∃ C, canon cf (lvl + 1)
              ((e :: e2 :: tl2).filter (fun x => !bitTest x.1 lvl)) = some C :=
            ⟨_, canon_isSome hcoF0 (by rw [hF0]; simp) (by omega)⟩
          have hw := ih (lvl + 1) N _ hcoF0 (by rw [hF0]; simp) h256 (by omega)
          rw [canonT, hC0, Option.getD_some] at hw
          simp [canonT, canon_cons₂, hF1, canon_nil, hC0, levelsLtB, hw]
          omega
        · obtain ⟨C0, hC0⟩ : ∃ C, canon cf (lvl + 1)
              ((e :: e2 :: tl2).filter (fun x => !bitTest x.1 lvl)) = some C :=
            ⟨_, canon_isSome hcoF0 (by rw [hF0]; simp) (by omega)⟩
          obtain ⟨C1, hC1⟩ : ∃ C, canon cf (lvl + 1)
              ((e :: e2 :: tl2).filter (fun x => bitTest x.1 lvl)) = some C :=
            ⟨_, canon_isSome hcoF1 (by rw [hF1]; simp) (by omega)⟩
          have hw0 := ih (lvl + 1) N _ hcoF0 (by rw [hF0]; simp) h256 (by omega)
          have hw1 := ih (lvl + 1) N _ hcoF1 (by rw [hF1]; simp) h256 (by omega)
          rw [canonT, hC0, Option.getD_some] at hw0
          rw [canonT, hC1, Option.getD_some] at hw1
          simp [canonT, canon_cons₂, hC0, hC1, levelsLtB, hw0, hw1]
          omega

/-- A tree whose stored levels are all bytes reports a depth of at most
255. -/
theorem maxDepthNode_le : ∀ (n : node), levelsLtB n = true → maxDepthNode n ≤ 255
  | .mk lvl l r (some kk) v, h => by
    cases l <;> cases r <;>
      simp only [levelsLtB, Bool.and_eq_true, decide_eq_true_eq] at h <;>
      simp only [maxDepthNode] <;> omega
  | .mk lvl none none none v, h => by
    simp [maxDepthNode]
  | .mk lvl (some ln) none none v, h => by
    simp only [levelsLtB, Bool.and_eq_true, decide_eq_true_eq] at h
    have h1 := maxDepthNode_le ln (by simp_all)
    simp only [maxDepthNode]
    split <;> omega
  | .mk lvl none (some rn) none v, h => by
    simp only [levelsLtB, Bool.and_eq_true, decide_eq_true_eq] at h
    have h1 := maxDepthNode_le rn (by simp_all)
    simp only [maxDepthNode]
    split <;> omega
  | .mk lvl (some ln) (some rn) none v, h => by
    simp only [levelsLtB, Bool.and_eq_true, decide_eq_true_eq] at h
    have h1 := maxDepthNode_le ln (by simp_all)
    have h2 := maxDepthNode_le rn (by simp_all)
    simp only [maxDepthNode]
    split <;> omega

/-- C10: node levels (and so the derived byte index and bit mask) are 8-bit
values: every stored level in a built trie is `< 256` and `MaxDepth` never
exceeds 255; and where the branching requires depth 256 — 32-byte keys
differing only in their last bit — the levels and the reported depth wrap
modulo 256, so `MaxDepth` returns 0. -/
theorem levels_wrap_mod_256 :
    (∀ (l : List (List Nat × List Nat)) (N f : Nat), l ≠ [] →
      (∀ e ∈ l, ByteKey N e.1) → (l.map Prod.fst).Pairwise (· ≠ ·) →
      8 * N ≤ 256 → 16 * N + 5 ≤ f →
      levelsLtB (MerkleTrie.AddList f NewMerkleTrie l).1.root = true
        ∧ MerkleTrie.MaxDepth (MerkleTrie.AddList f NewMerkleTrie l).1 ≤ 255)
    ∧ MerkleTrie.MaxDepth (MerkleTrie.AddList 600 NewMerkleTrie
        [(List.replicate 32 0, [1]), (List.replicate 31 0 ++ [1], [2])]).1 = 0 := by
  constructor
  · intro l N f hne hkeys hdist h256 hf
    have hfold := AddList_canon l N f hne hkeys hdist h256 hf
    have hcoE : Coherent N 0 (entriesOf l) := by
      refine ⟨?_, ?_, ?_⟩
      · intro e he
        obtain ⟨x, hx, rfl⟩ := List.mem_map.mp he
        exact hkeys x hx
      · simpa [entriesOf, List.map_map, Function.comp] using hdist
      · intro e1 _ e2 _ i hi
        omega
    have hEne : entriesOf l ≠ [] := by
      cases l with
      | nil => exact absurd rfl hne
      | cons a b => simp [entriesOf]
    have hlt := canon_levelsLt 256 0 N (entriesOf l) hcoE hEne h256 (by omega)
    rw [hfold]
    exact ⟨hlt, by simpa [MerkleTrie.MaxDepth] using maxDepthNode_le _ hlt⟩
  · have hfold := AddList_canon
      [(List.replicate 32 0, [1]), (List.replicate 31 0 ++ [1], [2])] 32 600
      (by simp) (by decide) (by decide) (by decide) (by decide)
    rw [hfold]
    have hmd := maxDepth_canon_two 255 0 255 256 (List.replicate 32 0)
      (List.replicate 31 0 ++ [1]) (some [1]) (some [2]) (by omega) (by omega)
      (by decide) (fun j hj1 hj2 => by revert hj2; revert j; decide) (by omega)
    simpa [MerkleTrie.MaxDepth, entriesOf] using hmd

/-- Closed witness for C10. -/
theorem levels_wrap_mod_256_witness :
    (levelsLtB (MerkleTrie.AddList 600 NewMerkleTrie [([5], [7])]).1.root = true
      ∧ MerkleTrie.MaxDepth (MerkleTrie.AddList 600 NewMerkleTrie
          [([5], [7])]).1 ≤ 255)
    ∧ MerkleTrie.MaxDepth (MerkleTrie.AddList 600 NewMerkleTrie
        [(List.replicate 32 0, [1]), (List.replicate 31 0 ++ [1], [2])]).1 = 0 :=
  ⟨levels_wrap_mod_256.1 [([5], [7])] 1 600 (by decide) (by decide) (by decide)
    (by decide) (by decide), levels_wrap_mod_256.2⟩

/-- The "short dance": inserting a key `k` into (or around) a leaf holding a
longer key `K` that agrees with `k` on all of `k`'s bits ends in the
`index out of range` panic: the two keys never separate within `k`'s bits,
and the dance reaches the byte index `k.length`.  Statement (a) adds `k`
into a leaf holding `K`; statement (b) adds `K` into a leaf holding `k`. -/
theorem shortdance : ∀ (gap lvl : Nat) (k K : List Nat)
    (v V : Option (List Nat)) (f : Nat),
    lvl + gap = 8 * k.length → k.length < K.length → 8 * k.length < 256 →
    (∀ i, i < 8 * k.length → bitTest K i = bitTest k i) →
    2 * gap + 2 ≤ f →
    (node.add f (node.mk lvl none none (some K) V) k v).2 = AddRes.keyTooShort
    ∧ (node.add f (node.mk lvl none none (some k) v) K V).2
        = AddRes.keyTooShort := by
  intro gap
  induction gap with
  | zero =>
    intro lvl k K v V f hld hlen h256 hshare hf
    obtain rfl : lvl = 8 * k.length := by omega
    have hKk : (K == k) = false :=
      beq_eq_false_iff_ne.mpr (fun h => absurd (congrArg List.length h) (by omega))
    have hkK : (k == K) = false :=
      beq_eq_false_iff_ne.mpr (fun h => absurd (congrArg List.length h) (by omega))
    have hkidx : k[8 * k.length / 8]? = none :=
      getElem?_eq_none_of_le (by omega)
    have hKlt : 8 * k.length / 8 < K.length := by omega
    obtain ⟨b, hgbK⟩ : ∃ b, K[8 * k.length / 8]? = some b :=
      ⟨_, getElem?_eq_some_getD hKlt⟩
    have hbrK := branch_eq_of_getElem hgbK
    have hkidx2 : k[k.length]? = none := getElem?_eq_none_of_le (by omega)
    have hgbK2 : K[k.length]? = some b := by
      simpa using hgbK
    have hbrK2 : ((128 &&& b == 0) : Bool) = !bitTest K (8 * k.length) := by
      simpa using hbrK
    constructor
    · obtain ⟨f, rfl⟩ : ∃ g, f = g + 1 := ⟨f - 1, by omega⟩
      simp [node.add, node.key, node.level, node.left, node.right, node.value,
        node.number, node.bit, hKk, hkidx, hkidx2]
    · obtain ⟨f, rfl⟩ : ∃ g, f = g + 2 := ⟨f - 2, by omega⟩
      cases hb : bitTest K (8 * k.length) <;> rw [hb] at hbrK2 <;>
        simp [node.add, node.key, node.level, node.left, node.right, node.value,
          node.number, node.bit, hkK, hgbK, hgbK2, hbrK2, hkidx, hkidx2]
  | succ gap ih =>
    intro lvl k K v V f hld hlen h256 hshare hf
    have hlvl : lvl < 8 * k.length := by omega
    have hKk : (K == k) = false :=
      beq_eq_false_iff_ne.mpr (fun h => absurd (congrArg List.length h) (by omega))
    have hkK : (k == K) = false :=
      beq_eq_false_iff_ne.mpr (fun h => absurd (congrArg List.length h) (by omega))
    have hkl : lvl / 8 < k.length := by omega
    have hKl : lvl / 8 < K.length := by omega
    obtain ⟨bk, hgbk⟩ : ∃ b, k[lvl / 8]? = some b := ⟨_, getElem?_eq_some_getD hkl⟩
    obtain ⟨bK, hgbK⟩ : ∃ b, K[lvl / 8]? = some b := ⟨_, getElem?_eq_some_getD hKl⟩
    have hbrk := branch_eq_of_getElem hgbk
    have hbrK := branch_eq_of_getElem hgbK
    have hsh : bitTest K lvl = bitTest k lvl := hshare lvl (by omega)
    have hmod : (lvl + 1) % 256 = lvl + 1 := Nat.mod_eq_of_lt (by omega)
    have hih := ih (lvl + 1) k K v V (f - 2) (by omega) hlen h256 hshare (by omega)
    obtain ⟨f, rfl⟩ : ∃ g, f = g + 2 := ⟨f - 2, by omega⟩
    simp only [Nat.add_sub_cancel] at hih
    constructor
    · rcases hrecp : node.add f (node.mk (lvl + 1) none none (some k) v) K V
        with ⟨X, res⟩
      have hres : res = AddRes.keyTooShort := by
        have := hih.2
        rw [hrecp] at this
        exact this
      subst hres
      cases hb : bitTest k lvl
      · have hbK : bitTest K lvl = false := hsh.trans hb
        rw [hb] at hbrk
        rw [hbK] at hbrK
        simp [node.add, node.key, node.level, node.left, node.right, node.value,
          node.number, node.bit, hKk, hgbk, hgbK, hbrk, hbrK, hmod, hrecp,
          newNode]
      · have hbK : bitTest K lvl = true := hsh.trans hb
        rw [hb] at hbrk
        rw [hbK] at hbrK
        simp [node.add, node.key, node.level, node.left, node.right, node.value,
          node.number, node.bit, hKk, hgbk, hgbK, hbrk, hbrK, hmod, hrecp,
          newNode]
    · rcases hrecp : node.add f (node.mk (lvl + 1) none none (some K) V) k v
        with ⟨X, res⟩
      have hres : res = AddRes.keyTooShort := by
        have := hih.1
        rw [hrecp] at this
        exact this
      subst hres
      cases hb : bitTest k lvl
      · have hbK : bitTest K lvl = false := hsh.trans hb
        rw [hb] at hbrk
        rw [hbK] at hbrK
        simp [node.add, node.key, node.level, node.left, node.right, node.value,
          node.number, node.bit, hkK, hgbk, hgbK, hbrk, hbrK, hmod, hrecp,
          newNode]
      · have hbK : bitTest K lvl = true := hsh.trans hb
        rw [hb] at hbrk
        rw [hbK] at hbrK
        simp [node.add, node.key, node.level, node.left, node.right, node.value,
          node.number, node.bit, hkK, hgbk, hgbK, hbrk, hbrK, hmod, hrecp,
          newNode]

/-- Inserting a key that is too short — some stored key agrees with it on
all of its bits — into the canonical tree of a coherent entry list ends in
the `index out of range` panic. -/
theorem addShortErr : ∀ (gap cf lvl : Nat) (E : List Entry) (k : List Nat)
    (v : Option (List Nat)) (N f : Nat),
    Coherent N lvl E → lvl + gap = 8 * k.length → k.length < N → 8 * N ≤ 256 →
    (∃ K, K ∈ E.map Prod.fst ∧ ∀ i, i < 8 * k.length → bitTest K i = bitTest k i) →
    (∀ e ∈ E, ∀ i, i < lvl → bitTest e.1 i = bitTest k i) →
    8 * N ≤ lvl + cf → 3 * gap + 3 ≤ f →
    (node.add f (canonT cf lvl E) k v).2 = AddRes.keyTooShort := by
  intro gap
  induction gap with
  | zero =>
    intro cf lvl E k v N f hco hld hmN h256 hex hpref hcf hf
    obtain ⟨K, hKmem, hKsh⟩ := hex
    cases E with
    | nil => simp at hKmem
    | cons e tl =>
      cases tl with
      | nil =>
        obtain rfl : e.1 = K := by
          have := hKmem
          simp only [List.map_cons, List.map_nil, List.mem_singleton] at this
          exact this.symm
        have hmod : lvl % 256 = lvl := Nat.mod_eq_of_lt (by omega)
        have hlenK : e.1.length = N := (hco.1 e (by simp)).1
        have hsd := (shortdance 0 lvl k e.1 v e.2 f (by omega) (by omega)
          (by omega) hKsh (by omega)).1
        simpa [canonT, canon_singleton, hmod] using hsd
      | cons e2 tl2 =>
        have hlvl8 : lvl < 8 * N := hco.lvl_lt
        obtain ⟨cf, rfl⟩ : ∃ g, cf = g + 1 := ⟨cf - 1, by omega⟩
        obtain ⟨f, rfl⟩ : ∃ g, f = g + 1 := ⟨f - 1, by omega⟩
        have hkidx : k[lvl / 8]? = none := getElem?_eq_none_of_le (by omega)
        simp [canonT, canon_cons₂, node.add, node.key, node.level, node.left,
          node.right, node.value, node.number, node.bit, hkidx]
  | succ gap ih =>
    intro cf lvl E k v N f hco hld hmN h256 hex hpref hcf hf
    obtain ⟨K, hKmem, hKsh⟩ := hex
    cases E with
    | nil => simp at hKmem
    | cons e tl =>
      cases tl with
      | nil =>
        obtain rfl : e.1 = K := by
          have := hKmem
          simp only [List.map_cons, List.map_nil, List.mem_singleton] at this
          exact this.symm
        have hmod : lvl % 256 = lvl := Nat.mod_eq_of_lt (by omega)
        have hlenK : e.1.length = N := (hco.1 e (by simp)).1
        have hsd := (shortdance (gap + 1) lvl k e.1 v e.2 f (by omega) (by omega)
          (by omega) hKsh (by omega)).1
        simpa [canonT, canon_singleton, hmod] using hsd
      | cons e2 tl2 =>
        have hlvl8 : lvl < 8 * N := hco.lvl_lt
        obtain ⟨cf, rfl⟩ : ∃ g, cf = g + 1 := ⟨cf - 1, by omega⟩
        obtain ⟨f, rfl⟩ : ∃ g, f = g + 1 := ⟨f - 1, by omega⟩
        have hkl : lvl / 8 < k.length := by omega
        obtain ⟨bk, hgbk⟩ : ∃ b, k[lvl / 8]? = some b :=
          ⟨_, getElem?_eq_some_getD hkl⟩
        have hbrk := branch_eq_of_getElem hgbk
        obtain ⟨eK, heKmem, heK1⟩ := List.mem_map.mp hKmem
        have hKlvl : bitTest K lvl = bitTest k lvl := hKsh lvl (by omega)
        cases hb : bitTest k lvl
        · rw [hb] at hbrk
          have heKF : eK ∈ (e :: e2 :: tl2).filter (fun x => !bitTest x.1 lvl) :=
            List.mem_filter.mpr ⟨heKmem, by simp [heK1, hKlvl, hb]⟩
          have hcoF : Coherent N (lvl + 1)
              ((e :: e2 :: tl2).filter (fun x => !bitTest x.1 lvl)) := by
            refine hco.filter _ (fun x1 x2 h1 h2 => ?_)
            simp only [Bool.not_eq_true'] at h1 h2
            rw [h1, h2]
          obtain ⟨C, hC⟩ : ∃ C, canon cf (lvl + 1)
                ((e :: e2 :: tl2).filter (fun x => !bitTest x.1 lvl)) = some C :=
            ⟨_, canon_isSome hcoF (List.ne_nil_of_mem heKF) (by omega)⟩
          have hprefF : ∀ x ∈ (e :: e2 :: tl2).filter (fun x => !bitTest x.1 lvl),
              ∀ i, i < lvl + 1 → bitTest x.1 i = bitTest k i := by
            intro x hx i hi
            rcases Nat.lt_succ_iff_lt_or_eq.mp hi with hlt | rfl
            · exact hpref x (List.mem_of_mem_filter hx) i hlt
            · have := List.of_mem_filter hx
              simp only [Bool.not_eq_true'] at this
              rw [this, hb]
          have hrec := ih cf (lvl + 1)
            ((e :: e2 :: tl2).filter (fun x => !bitTest x.1 lvl)) k v N f
            hcoF (by omega) hmN h256
            ⟨K, List.mem_map.mpr ⟨eK, heKF, heK1⟩, hKsh⟩ hprefF (by omega) (by omega)
          rw [canonT, hC, Option.getD_some] at hrec
          rcases hrecp : node.add f C k v with ⟨X, res⟩
          rw [hrecp] at hrec
          subst hrec
          simp [canonT, canon_cons₂, node.add, node.key, node.level, node.left,
            node.right, node.value, node.number, node.bit, hgbk, hbrk, hC, hrecp]
        · rw [hb] at hbrk
          have heKF : eK ∈ (e :: e2 :: tl2).filter (fun x => bitTest x.1 lvl) :=
            List.mem_filter.mpr ⟨heKmem, by simp [heK1, hKlvl, hb]⟩
          have hcoF : Coherent N (lvl + 1)
              ((e :: e2 :: tl2).filter (fun x => bitTest x.1 lvl)) := by
            refine hco.filter _ (fun x1 x2 h1 h2 => ?_)
            rw [h1, h2]
          obtain ⟨C, hC⟩ : ∃ C, canon cf (lvl + 1)
                ((e :: e2 :: tl2).filter (fun x => bitTest x.1 lvl)) = some C :=
            ⟨_, canon_isSome hcoF (List.ne_nil_of_mem heKF) (by omega)⟩
          have hprefF : ∀ x ∈ (e :: e2 :: tl2).filter (fun x => bitTest x.1 lvl),
              ∀ i, i < lvl + 1 → bitTest x.1 i = bitTest k i := by
            intro x hx i hi
            rcases Nat.lt_succ_iff_lt_or_eq.mp hi with hlt | rfl
            · exact hpref x (List.mem_of_mem_filter hx) i hlt
            · have := List.of_mem_filter hx
              rw [this, hb]
          have hrec := ih cf (lvl + 1)
            ((e :: e2 :: tl2).filter (fun x => bitTest x.1 lvl)) k v N f
            hcoF (by omega) hmN h256
            ⟨K, List.mem_map.mpr ⟨eK, heKF, heK1⟩, hKsh⟩ hprefF (by omega) (by omega)
          rw [canonT, hC, Option.getD_some] at hrec
          rcases hrecp : node.add f C k v with ⟨X, res⟩
          rw [hrecp] at hrec
          subst hrec
          simp [canonT, canon_cons₂, node.add, node.key, node.level, node.left,
            node.right, node.value, node.number, node.bit, hgbk, hbrk, hC, hrecp]

/-- C3: inserting a key that is too short to reach the byte index some
traversal step requires — witnessed by a stored key agreeing with the
inserted key on every one of its bits, which forces the traversal to read
byte `k.length` — makes `Add` signal the explicit `index out of range`
error (`AddRes.keyTooShort`, the embedding of the Go runtime panic raised
by `key[n.number]`), rather than reading out of bounds or silently
truncating the key. -/
theorem add_short_key_errors (l : List (List Nat × List Nat)) (k v : List Nat)
    (N f g : Nat)
    (hne : l ≠ []) (hkeys : ∀ e ∈ l, ByteKey N e.1)
    (hdist : (l.map Prod.fst).Pairwise (· ≠ ·))
    (h256 : 8 * N ≤ 256) (hf : 16 * N + 5 ≤ f)
    (hg : 3 * (8 * k.length) + 3 ≤ g)
    (hshort : k.length < N)
    (hshare : ∃ K, K ∈ l.map Prod.fst
      ∧ ∀ i, i < 8 * k.length → bitTest K i = bitTest k i) :
    (MerkleTrie.Add g (MerkleTrie.AddList f NewMerkleTrie l).1 k v).2
      = AddRes.keyTooShort := by
  rw [AddList_canon l N f hne hkeys hdist h256 hf]
  have hcoE : Coherent N 0 (entriesOf l) := by
    refine ⟨?_, ?_, ?_⟩
    · intro e he
      obtain ⟨x, hx, rfl⟩ := List.mem_map.mp he
      exact hkeys x hx
    · simpa [entriesOf, List.map_map, Function.comp] using hdist
    · intro e1 _ e2 _ i hi
      omega
  have hex : ∃ K, K ∈ (entriesOf l).map Prod.fst
      ∧ ∀ i, i < 8 * k.length → bitTest K i = bitTest k i := by
    rwa [entriesOf_keys]
  have herr := addShortErr (8 * k.length) 256 0 (entriesOf l) k (some v) N g
    hcoE (by omega) hshort h256 hex (fun e he i hi => absurd hi (by omega))
    (by omega) hg
  simpa [MerkleTrie.Add] using herr

/-- Closed witness for C3: the one-byte key `[0]` is a bit-prefix of the
stored two-byte key `[0, 0]`. -/
theorem add_short_key_errors_witness :
    (MerkleTrie.Add 100 (MerkleTrie.AddList 600 NewMerkleTrie
        [([0, 0], [1]), ([0, 1], [2])]).1 [0] [9]).2 = AddRes.keyTooShort :=
  add_short_key_errors [([0, 0], [1]), ([0, 1], [2])] [0] [9] 2 600 100
    (by decide) (by decide) (by decide) (by decide) (by decide) (by decide)
    (by decide) ⟨[0, 0], by decide, by decide⟩

/-- Inserting a too-short key below a branch that still has at least two
stored keys agreeing with it on all of its bits fails with the node — and
hence the whole trie — left exactly unchanged: the out-of-range read
happens at an internal node, before any mutation. -/
theorem addShortUnchanged : ∀ (gap cf lvl : Nat) (E : List Entry)
    (k : List Nat) (v : Option (List Nat)) (N f : Nat),
    Coherent N lvl E → lvl + gap = 8 * k.length → k.length < N → 8 * N ≤ 256 →
    (∃ K1 K2, K1 ∈ E.map Prod.fst ∧ K2 ∈ E.map Prod.fst ∧ K1 ≠ K2 ∧
      (∀ i, i < 8 * k.length → bitTest K1 i = bitTest k i) ∧
      (∀ i, i < 8 * k.length → bitTest K2 i = bitTest k i)) →
    (∀ e ∈ E, ∀ i, i < lvl → bitTest e.1 i = bitTest k i) →
    8 * N ≤ lvl + cf → gap + 1 ≤ f →
    node.add f (canonT cf lvl E) k v = (canonT cf lvl E, AddRes.keyTooShort) := by
  intro gap
  induction gap with
  | zero =>
    intro cf lvl E k v N f hco hld hmN h256 hex hpref hcf hf
    obtain ⟨K1, K2, hK1, hK2, hK12, hsh1, hsh2⟩ := hex
    cases E with
    | nil => simp at hK1
    | cons e tl =>
      cases tl with
      | nil =>
        exfalso
        simp only [List.map_cons, List.map_nil, List.mem_singleton] at hK1 hK2
        exact hK12 (hK1.trans hK2.symm)
      | cons e2 tl2 =>
        have hlvl8 : lvl < 8 * N := hco.lvl_lt
        obtain ⟨cf, rfl⟩ : ∃ g, cf = g + 1 := ⟨cf - 1, by omega⟩
        obtain ⟨f, rfl⟩ : ∃ g, f = g + 1 := ⟨f - 1, by omega⟩
        have hkidx : k[lvl / 8]? = none := getElem?_eq_none_of_le (by omega)
        simp [canonT, canon_cons₂, node.add, node.key, node.level, node.left,
          node.right, node.value, node.number, node.bit, hkidx]
  | succ gap ih =>
    intro cf lvl E k v N f hco hld hmN h256 hex hpref hcf hf
    obtain ⟨K1, K2, hK1, hK2, hK12, hsh1, hsh2⟩ := hex
    cases E with
    | nil => simp at hK1
    | cons e tl =>
      cases tl with
      | nil =>
        exfalso
        simp only [List.map_cons, List.map_nil, List.mem_singleton] at hK1 hK2
        exact hK12 (hK1.trans hK2.symm)
      | cons e2 tl2 =>
        have hlvl8 : lvl < 8 * N := hco.lvl_lt
        obtain ⟨cf, rfl⟩ : ∃ g, cf = g + 1 := ⟨cf - 1, by omega⟩
        obtain ⟨f, rfl⟩ : ∃ g, f = g + 1 := ⟨f - 1, by omega⟩
        have hkl : lvl / 8 < k.length := by omega
        obtain ⟨bk, hgbk⟩ : ∃ b, k[lvl / 8]? = some b :=
          ⟨_, getElem?_eq_some_getD hkl⟩
        have hbrk := branch_eq_of_getElem hgbk
        obtain ⟨eK1, heK1mem, heK11⟩ := List.mem_map.mp hK1
        obtain ⟨eK2, heK2mem, heK21⟩ := List.mem_map.mp hK2
        have hK1lvl : bitTest K1 lvl = bitTest k lvl := hsh1 lvl (by omega)
        have hK2lvl : bitTest K2 lvl = bitTest k lvl := hsh2 lvl (by omega)
        cases hb : bitTest k lvl
        · rw [hb] at hbrk
          have heKF1 : eK1 ∈ (e :: e2 :: tl2).filter (fun x => !bitTest x.1 lvl) :=
            List.mem_filter.mpr ⟨heK1mem, by simp [heK11, hK1lvl, hb]⟩
          have heKF2 : eK2 ∈ (e :: e2 :: tl2).filter (fun x => !bitTest x.1 lvl) :=
            List.mem_filter.mpr ⟨heK2mem, by simp [heK21, hK2lvl, hb]⟩
          have hcoF : Coherent N (lvl + 1)
              ((e :: e2 :: tl2).filter (fun x => !bitTest x.1 lvl)) := by
            refine hco.filter _ (fun x1 x2 h1 h2 => ?_)
            simp only [Bool.not_eq_true'] at h1 h2
            rw [h1, h2]
          obtain ⟨C, hC⟩ : ∃ C, canon cf (lvl + 1)
                ((e :: e2 :: tl2).filter (fun x => !bitTest x.1 lvl)) = some C :=
            ⟨_, canon_isSome hcoF (List.ne_nil_of_mem heKF1) (by omega)⟩
          have hprefF : ∀ x ∈ (e :: e2 :: tl2).filter (fun x => !bitTest x.1 lvl),
              ∀ i, i < lvl + 1 → bitTest x.1 i = bitTest k i := by
            intro x hx i hi
            rcases Nat.lt_succ_iff_lt_or_eq.mp hi with hlt | rfl
            · exact hpref x (List.mem_of_mem_filter hx) i hlt
            · have := List.of_mem_filter hx
              simp only [Bool.not_eq_true'] at this
              rw [this, hb]
          have hrec := ih cf (lvl + 1)
            ((e :: e2 :: tl2).filter (fun x => !bitTest x.1 lvl)) k v N f
            hcoF (by omega) hmN h256
            ⟨K1, K2, List.mem_map.mpr ⟨eK1, heKF1, heK11⟩,
              List.mem_map.mpr ⟨eK2, heKF2, heK21⟩, hK12, hsh1, hsh2⟩
            hprefF (by omega) (by omega)
          rw [canonT, hC, Option.getD_some] at hrec
          simp [canonT, canon_cons₂, node.add, node.key, node.level, node.left,
            node.right, node.value, node.number, node.bit, hgbk, hbrk, hC, hrec]
        · rw [hb] at hbrk
          have heKF1 : eK1 ∈ (e :: e2 :: tl2).filter (fun x => bitTest x.1 lvl) :=
            List.mem_filter.mpr ⟨heK1mem, by simp [heK11, hK1lvl, hb]⟩
          have heKF2 : eK2 ∈ (e :: e2 :: tl2).filter (fun x => bitTest x.1 lvl) :=
            List.mem_filter.mpr ⟨heK2mem, by simp [heK21, hK2lvl, hb]⟩
          have hcoF : Coherent N (lvl + 1)
              ((e :: e2 :: tl2).filter (fun x => bitTest x.1 lvl)) := by
            refine hco.filter _ (fun x1 x2 h1 h2 => ?_)
            rw [h1, h2]
          obtain ⟨C, hC⟩ : ∃ C, canon cf (lvl + 1)
                ((e :: e2 :: tl2).filter (fun x => bitTest x.1 lvl)) = some C :=
            ⟨_, canon_isSome hcoF (List.ne_nil_of_mem heKF1) (by omega)⟩
          have hprefF : ∀ x ∈ (e :: e2 :: tl2).filter (fun x => bitTest x.1 lvl),
              ∀ i, i < lvl + 1 → bitTest x.1 i = bitTest k i := by
            intro x hx i hi
            rcases Nat.lt_succ_iff_lt_or_eq.mp hi with hlt | rfl
            · exact hpref x (List.mem_of_mem_filter hx) i hlt
            · have := List.of_mem_filter hx
              rw [this, hb]
          have hrec := ih cf (lvl + 1)
            ((e :: e2 :: tl2).filter (fun x => bitTest x.1 lvl)) k v N f
            hcoF (by omega) hmN h256
            ⟨K1, K2, List.mem_map.mpr ⟨eK1, heKF1, heK11⟩,
              List.mem_map.mpr ⟨eK2, heKF2, heK21⟩, hK12, hsh1, hsh2⟩
            hprefF (by omega) (by omega)
          rw [canonT, hC, Option.getD_some] at hrec
          simp [canonT, canon_cons₂, node.add, node.key, node.level, node.left,
            node.right, node.value, node.number, node.bit, hgbk, hbrk, hC, hrec]

/-- C4 (amended): a failed insertion is *not* always rolled back — the code
validates nothing before mutating, and a failure during leaf demotion
mutates the tree (see the counterexample).  The trie is left exactly as it
was before the failed call when the error surfaces before any mutation: in
particular, whenever at least two stored keys agree with the too-short key
on all of its bits, the out-of-range read happens at an internal node on
the pure traversal path and the failed `Add` returns the trie unchanged. -/
theorem failed_add_unchanged_two_sharing (l : List (List Nat × List Nat))
    (k v : List Nat) (N f g : Nat)
    (hne : l ≠ []) (hkeys : ∀ e ∈ l, ByteKey N e.1)
    (hdist : (l.map Prod.fst).Pairwise (· ≠ ·))
    (h256 : 8 * N ≤ 256) (hf : 16 * N + 5 ≤ f)
    (hg : 8 * k.length + 1 ≤ g)
    (hshort : k.length < N)
    (hshare : ∃ K1 K2, K1 ∈ l.map Prod.fst ∧ K2 ∈ l.map Prod.fst ∧ K1 ≠ K2 ∧
      (∀ i, i < 8 * k.length → bitTest K1 i = bitTest k i) ∧
      (∀ i, i < 8 * k.length → bitTest K2 i = bitTest k i)) :
    MerkleTrie.Add g (MerkleTrie.AddList f NewMerkleTrie l).1 k v
      = ((MerkleTrie.AddList f NewMerkleTrie l).1, AddRes.keyTooShort) := by
  rw [AddList_canon l N f hne hkeys hdist h256 hf]
  have hcoE : Coherent N 0 (entriesOf l) := by
    refine ⟨?_, ?_, ?_⟩
    · intro e he
      obtain ⟨x, hx, rfl⟩ := List.mem_map.mp he
      exact hkeys x hx
    · simpa [entriesOf, List.map_map, Function.comp] using hdist
    · intro e1 _ e2 _ i hi
      omega
  have hex : ∃ K1 K2, K1 ∈ (entriesOf l).map Prod.fst
      ∧ K2 ∈ (entriesOf l).map Prod.fst ∧ K1 ≠ K2 ∧
      (∀ i, i < 8 * k.length → bitTest K1 i = bitTest k i) ∧
      (∀ i, i < 8 * k.length → bitTest K2 i = bitTest k i) := by
    rwa [entriesOf_keys]
  have hunch := addShortUnchanged (8 * k.length) 256 0 (entriesOf l) k (some v)
    N g hcoE (by omega) hshort h256 hex (fun e he i hi => absurd hi (by omega))
    (by omega) (by omega)
  simp [MerkleTrie.Add, hunch]

/-- Closed witness for the amended C4: the one-byte key `[0]` shares all its
bits with both stored keys `[0, 0]` and `[0, 1]`; the failed `Add` leaves
the trie exactly unchanged. -/
theorem failed_add_unchanged_two_sharing_witness :
    MerkleTrie.Add 100 (MerkleTrie.AddList 600 NewMerkleTrie
        [([0, 0], [1]), ([0, 1], [2])]).1 [0] [9]
      = ((MerkleTrie.AddList 600 NewMerkleTrie
        [([0, 0], [1]), ([0, 1], [2])]).1, AddRes.keyTooShort) :=
  failed_add_unchanged_two_sharing [([0, 0], [1]), ([0, 1], [2])] [0] [9]
    2 600 100 (by decide) (by decide) (by decide) (by decide) (by decide)
    (by decide) (by decide)
    ⟨[0, 0], [0, 1], by decide, by decide, by decide, by decide, by decide⟩

/-- Counterexample to C4 as stated: the trie holds the one-byte key `[255]`;
inserting `[255, 1]` fails (during demotion the stored key `[255]` runs out
of bytes at depth 8), and the failed `Add` has already mutated the tree —
the root's `key` field, previously `some [255]`, has been cleared to
`none`.  No key-length validation precedes mutation. -/
theorem failed_add_mutates_counterexample :
    (MerkleTrie.Add 100 (MerkleTrie.Add 100 NewMerkleTrie [255] [1]).1
        [255, 1] [7]).2 = AddRes.keyTooShort
    ∧ (MerkleTrie.Add 100 (MerkleTrie.Add 100 NewMerkleTrie [255] [1]).1
        [255, 1] [7]).1.root.key = none
    ∧ (MerkleTrie.Add 100 NewMerkleTrie [255] [1]).1.root.key = some [255] := by
  refine ⟨by decide, by decide, by decide⟩

end MerkleTrieGo
